import Mathlib

/-!
Verification of the followable-link subsystem of the `glow` terminal
markdown pager (files `ui/pager_links.go`, `ui/pager_highlight.go`,
`ui/pager.go`).

Shallow embedding conventions:
* Go strings on the resolver side are modelled as `List Char` (`GoString`);
  the href, path and label strings handled there are treated as sequences
  of Unicode code points, matching Go's rune view of valid-UTF-8 strings.
* Go strings on the highlighter side are modelled as raw byte lists
  (`GoStr := List Nat`), because `pager_highlight.go` works with byte
  offsets, ANSI escape bytes and possibly invalid UTF-8.
* Filesystem access (`os.Stat`, `filepath.EvalSymlinks`, `os.Getwd`) is an
  explicit capability record `FS`; the pure lexical path algorithms of
  `path/filepath` (Unix flavour: `Clean`, `Join`, `Dir`, `Rel`, `IsAbs`)
  are embedded as executable functions.
-/

namespace Glow

/-- Go strings, rune view (resolver side). -/
abbrev GoString := List Char

/-- Convert a Lean string literal to the `GoString` model. -/
def gs (s : String) : GoString := s.toList

/-- `unicode.IsSpace` (the white-space code points recognised by Go's
`strings.TrimSpace`). -/
def isSpaceChar (c : Char) : Bool :=
  let n := c.toNat
  n == 9 || n == 10 || n == 11 || n == 12 || n == 13 || n == 32 ||
  n == 0x85 || n == 0xA0 || n == 0x1680 ||
  (0x2000 ≤ n && n ≤ 0x200A) ||
  n == 0x2028 || n == 0x2029 || n == 0x202F || n == 0x205F || n == 0x3000

/-- `strings.TrimSpace`: drop leading and trailing white-space runes. -/
def trimSpace (s : GoString) : GoString :=
  ((s.dropWhile isSpaceChar).reverse.dropWhile isSpaceChar).reverse

/-- The cutset test of `strings.Trim(href, "<>")`. -/
def isAngle (c : Char) : Bool := c == '<' || c == '>'

/-- `strings.Trim(s, "<>")`: drop ALL leading and trailing `<` / `>`
characters (Go's `Trim` removes every leading/trailing rune contained in
the cutset, not a single matched pair). -/
def trimAngles (s : GoString) : GoString :=
  ((s.dropWhile isAngle).reverse.dropWhile isAngle).reverse

/-- `strings.ToLower`, restricted to the mappings that can affect the
ASCII-needle prefix/suffix/contains tests used by this code: ASCII
`A`–`Z` map down, and U+212A (Kelvin sign) maps to `k`; every other
mapping of Go's `ToLower` sends non-ASCII runes to non-ASCII runes and is
therefore invisible to those tests, so other runes are kept unchanged. -/
def toLowerChar (c : Char) : Char :=
  if 'A' ≤ c ∧ c ≤ 'Z' then Char.ofNat (c.toNat + 32)
  else if c.toNat == 0x212A then 'k'
  else c

/-- `strings.ToLower` on the rune view. -/
def toLower (s : GoString) : GoString := s.map toLowerChar

/-- `strings.Contains`. -/
def goContains (s sub : GoString) : Bool := decide (List.IsInfix sub s)

/-- `strings.HasPrefix`. -/
def hasPrefix (s pre : GoString) : Bool := pre.isPrefixOf s

/-- `strings.HasSuffix`. -/
def hasSuffix (s suf : GoString) : Bool := suf.isSuffixOf s

/-- `splitFragment` (`pager_links.go`): `strings.Cut(href, "#")` — the part
before the first `#` and the part after it; no `#` gives an empty
fragment. -/
def splitFragment (href : GoString) : GoString × GoString :=
  if '#' ∈ href then
    (href.takeWhile (fun c => ¬ (c = '#')),
     (href.dropWhile (fun c => ¬ (c = '#'))).tail)
  else (href, [])

/-- ASCII letter test of `isAbsoluteOrUNCPath`'s drive-letter check. -/
def isAsciiLetter (c : Char) : Bool :=
  ('a' ≤ c && c ≤ 'z') || ('A' ≤ c && c ≤ 'Z')

/-- `filepath.IsAbs` (Unix): a path is absolute iff it starts with `/`. -/
def isAbsPath (p : GoString) : Bool :=
  match p with
  | [] => false
  | c :: _ => c == '/'

/-- `isAbsoluteOrUNCPath` (`pager_links.go`): leading `/`, leading `\\`,
a drive-letter `X:` prefix, or platform-absolute. -/
def isAbsoluteOrUNCPath (path : GoString) : Bool :=
  if hasPrefix path (gs "/") then true
  else if hasPrefix path (gs "\\\\") then true
  else if 2 ≤ path.length &&
          isAsciiLetter (path.headI) && (path.getD 1 ' ' == ':') then true
  else isAbsPath path

/-- `isFollowableHref` (`pager_links.go`). -/
def isFollowableHref (href0 : GoString) : Bool :=
  let href := trimAngles (trimSpace href0)
  let hrefLower := toLower href
  if goContains href (gs "://") || hasPrefix hrefLower (gs "mailto:") then
    false
  else
    let path := (splitFragment href).1
    if isAbsoluteOrUNCPath path then false
    else
      let pathLower := toLower path
      hasSuffix pathLower (gs ".md") || hasSuffix pathLower (gs ".markdown")

/-- Hex-digit test of `url.PathUnescape`. -/
def isHexChar (c : Char) : Bool :=
  ('0' ≤ c && c ≤ '9') || ('a' ≤ c && c ≤ 'f') || ('A' ≤ c && c ≤ 'F')

/-- Hex-digit value. -/
def hexVal (c : Char) : Nat :=
  if '0' ≤ c ∧ c ≤ '9' then c.toNat - '0'.toNat
  else if 'a' ≤ c ∧ c ≤ 'f' then c.toNat - 'a'.toNat + 10
  else if 'A' ≤ c ∧ c ≤ 'F' then c.toNat - 'A'.toNat + 10
  else 0

/-- `url.PathUnescape`: decode every `%XX`; fail (`none`) on a `%` that is
not followed by two hex digits. `+` is left alone in path mode. Decoded
bytes are modelled as code points, consistent with the rune view. -/
def pathUnescape : GoString → Option GoString
  | [] => some []
  | '%' :: a :: b :: rest =>
      if isHexChar a && isHexChar b then
        (pathUnescape rest).map (fun r => Char.ofNat (16 * hexVal a + hexVal b) :: r)
      else none
  | '%' :: _ => none
  | c :: rest => (pathUnescape rest).map (fun r => c :: r)

/-- Accumulating worker for `splitSlash`. -/
def splitSlashAux : GoString → GoString → List GoString
  | [], acc => [acc.reverse]
  | '/' :: rest, acc => acc.reverse :: splitSlashAux rest []
  | c :: rest, acc => splitSlashAux rest (c :: acc)

/-- Split a path on `/` into its chunks (helper for `clean` and `rel`;
mirrors the element scanning of Go's `path/filepath` loops); the empty
path has no chunks. -/
def splitSlash (s : GoString) : List GoString :=
  if s = [] then [] else splitSlashAux s []

/-- One step of `filepath.Clean`'s element processing: skip empty and `.`
elements, let `..` pop a previous element (or be kept / dropped at the
front depending on rootedness), append anything else. -/
def cleanStep (rooted : Bool) (acc : List GoString) (c : GoString) : List GoString :=
  if c = [] ∨ c = gs "." then acc
  else if c = gs ".." then
    if acc ≠ [] ∧ acc.getLast? ≠ some (gs "..") then acc.dropLast
    else if rooted then acc
    else acc ++ [gs ".."]
  else acc ++ [c]

/-- `filepath.Clean` (Unix): shortest lexically-equivalent path. -/
def clean (p : GoString) : GoString :=
  if p = [] then gs "."
  else
    let rooted := isAbsPath p
    let comps := (splitSlash p).foldl (cleanStep rooted) []
    let body := List.intercalate (gs "/") comps
    if rooted then '/' :: body
    else if body = [] then gs "."
    else body

/-- `filepath.Join(a, b)` (Unix): join the non-empty elements with `/` and
clean the result; all-empty input gives the empty string. -/
def joinPath (a b : GoString) : GoString :=
  if a = [] ∧ b = [] then []
  else if a = [] then clean b
  else clean (a ++ '/' :: b)

/-- `filepath.Dir` (Unix): everything before the final path element,
cleaned; `.` when there is no slash. -/
def dirPath (p : GoString) : GoString :=
  let trailing := (p.reverse.takeWhile (fun c => ¬ (c = '/'))).length
  clean (p.take (p.length - trailing))

/-- Strip the common leading chunks of two component lists (the
first-differing-element scan of `filepath.Rel`). -/
def dropCommon : List GoString → List GoString → List GoString × List GoString
  | x :: xs, y :: ys => if x = y then dropCommon xs ys else (x :: xs, y :: ys)
  | xs, ys => (xs, ys)

/-- `filepath.Rel(base, targ)` (Unix): `none` models Go's error return.
Both paths are cleaned; a `.` base becomes empty; mixing rooted and
unrooted paths is an error; if the first differing base element is `..`
it is an error; otherwise climb out of the remaining base elements with
`..`s and descend into the remaining target elements. -/
def rel (basepath targpath : GoString) : Option GoString :=
  let base0 := clean basepath
  let targ := clean targpath
  if targ = base0 then some (gs ".")
  else
    let base := if base0 = gs "." then [] else base0
    let baseSlashed := isAbsPath base
    let targSlashed := isAbsPath targ
    if ¬ (baseSlashed = targSlashed) then none
    else
      let b := if baseSlashed then base.tail else base
      let t := if targSlashed then targ.tail else targ
      let (brest, trest) := dropCommon (splitSlash b) (splitSlash t)
      match brest with
      | [] => some (List.intercalate (gs "/") trest)
      | x :: xs =>
          if x = gs ".." then none
          else some (List.intercalate (gs "/")
                      (List.replicate (xs.length + 1) (gs "..") ++ trest))

/-- `os.Stat` result: only the regular-file bit of the mode is consumed
(`info.Mode().IsRegular()`). -/
structure FileInfo where
  isRegular : Bool
deriving DecidableEq

/-- Filesystem capability: `cwd` is `os.Getwd` (`none` = error, which makes
`filepath.Abs` fail), `evalSymlinks` is `filepath.EvalSymlinks` (`none` =
error), `stat` is `os.Stat` (`none` = error). -/
structure FS where
  cwd : Option GoString
  evalSymlinks : GoString → Option GoString
  stat : GoString → Option FileInfo

/-- `filepath.Abs` (Unix): an absolute path is just cleaned; a relative
path is joined onto the working directory; the only failure is a failing
`os.Getwd`. -/
def absPath (fs : FS) (p : GoString) : Option GoString :=
  if isAbsPath p then some (clean p)
  else fs.cwd.map (fun wd => joinPath wd p)

/-- `followableLink` (`pager_links.go`). -/
structure FollowableLink where
  Href : GoString
  Path : GoString
  Fragment : GoString
  Label : GoString
  ResolvedPath : GoString
  ResolvedNote : GoString
deriving DecidableEq

/-- `rawLink` (`pager_links.go`): destination and visible label text as
delivered by the external goldmark AST walk (`extractRawLinks`; the parse
itself is an external collaborator). -/
structure RawLink where
  href : GoString
  label : GoString

/-- Modelled from the spec: `stripAbsolutePath` lives outside the provided
sources (`utils`); per the spec, `ResolvedNote` is the `ResolvedPath` with
the evaluated root prefix stripped, for status-line display. -/
def stripAbsolutePath (p root : GoString) : GoString :=
  if hasPrefix p (root ++ [ '/' ]) then p.drop (root.length + 1) else p

/-- The two hard-error exits of `resolveFollowableLink` (wrapped
`filepath.Abs` failures). -/
inductive ResolveErr where
  | absRootDir
  | absResolvedPath
deriving DecidableEq

/-- Steps 4–7 of `resolveFollowableLink` (`pager_links.go`, lines 156–197):
join the (already decoded) path against the current document's directory,
clean, make absolute, best-effort symlink-evaluate both sides, check
containment under the root via `filepath.Rel`, and stat. Factored out of
`resolveFollowableLink` so the post-decode pipeline can be named; the Go
code has it inline. -/
def resolveCandidatePath (fs : FS) (rootDir currentFilePath path frag href : GoString) :
    Except ResolveErr (Option FollowableLink) :=
  let base := dirPath currentFilePath
  let resolved := clean (joinPath base path)
  match absPath fs rootDir with
  | none => .error .absRootDir
  | some rootAbs0 =>
    match absPath fs resolved with
    | none => .error .absResolvedPath
    | some resAbs0 =>
      let rootAbs := (fs.evalSymlinks rootAbs0).getD rootAbs0
      let resAbs := (fs.evalSymlinks resAbs0).getD resAbs0
      match rel rootAbs resAbs with
      | none => .ok none
      | some r =>
        if r = gs ".." ∨ hasPrefix r (gs "../") then .ok none
        else
          match fs.stat resAbs with
          | none => .ok none
          | some info =>
            if info.isRegular = false then .ok none
            else .ok (some
              { Href := href, Path := path, Fragment := frag, Label := []
                ResolvedPath := resAbs
                ResolvedNote := stripAbsolutePath resAbs rootAbs })

/-- `resolveFollowableLink` (`pager_links.go`): normalize, classify,
fragment-split, percent-decode (best effort), then resolve. The returned
`Except _ (Option _)` models Go's `(followableLink, ok, error)`:
`.ok none` is `ok=false, err=nil`, `.error _` is a hard error. -/
def resolveFollowableLink (fs : FS) (rootDir currentFilePath href0 : GoString) :
    Except ResolveErr (Option FollowableLink) :=
  let href := trimAngles (trimSpace href0)
  if isFollowableHref href = false then .ok none
  else
    let pf := splitFragment href
    let path0 := trimSpace pf.1
    if path0 = [] then .ok none
    else
      let path := if path0.contains '%' then (pathUnescape path0).getD path0 else path0
      resolveCandidatePath fs rootDir currentFilePath path pf.2 href

/-- `followableLinksForDocument` (`pager_links.go`), with the raw links of
the external markdown parse supplied as input (`extractRawLinks` delegates
wholly to the external goldmark parser): resolve each raw link in order,
propagate hard errors, silently drop non-followable links and links whose
label is empty after trimming, and stamp the label on the kept links. -/
def followableLinksForDocument (fs : FS) (rootDir currentFilePath : GoString) :
    List RawLink → Except ResolveErr (List FollowableLink)
  | [] => .ok []
  | l :: rest =>
    match resolveFollowableLink fs rootDir currentFilePath l.href with
    | .error e => .error e
    | .ok none => followableLinksForDocument fs rootDir currentFilePath rest
    | .ok (some link) =>
      if trimSpace l.label = [] then
        followableLinksForDocument fs rootDir currentFilePath rest
      else
        (followableLinksForDocument fs rootDir currentFilePath rest).map
          (fun out => { link with Label := l.label } :: out)

/-! ## Highlighter (`pager_highlight.go`), byte-level embedding -/

/-- Go strings as raw byte lists (highlighter side). -/
abbrev GoStr := List Nat

/-- `utf8.DecodeRune`: decode the first rune of a byte string, returning
`(rune, size)`. Failures (empty suffix, invalid first byte, short or
out-of-range continuation bytes, overlong forms, surrogates, values above
U+10FFFF) give `(RuneError, 1)` (`(RuneError, 0)` on empty input). The
bit operations of the Go original are written as arithmetic on `Nat`:
for bytes in the ranges the branches establish, `b &&& 0x3F = b - 0x80`,
`b &&& 0x1F = b - 0xC0`, `b &&& 0x0F = b - 0xE0`, `b &&& 0x07 = b - 0xF0`
and `r <<< k = r * 2^k`. -/
def decodeRune : GoStr → Nat × Nat
  | [] => (0xFFFD, 0)
  | b0 :: rest =>
    if b0 < 0x80 then (b0, 1)
    else if 0xC2 ≤ b0 ∧ b0 ≤ 0xDF then
      match rest with
      | b1 :: _ =>
        if 0x80 ≤ b1 ∧ b1 ≤ 0xBF then ((b0 - 0xC0) * 64 + (b1 - 0x80), 2)
        else (0xFFFD, 1)
      | [] => (0xFFFD, 1)
    else if 0xE0 ≤ b0 ∧ b0 ≤ 0xEF then
      let lo := if b0 = 0xE0 then 0xA0 else 0x80
      let hi := if b0 = 0xED then 0x9F else 0xBF
      match rest with
      | b1 :: b2 :: _ =>
        if lo ≤ b1 ∧ b1 ≤ hi then
          if 0x80 ≤ b2 ∧ b2 ≤ 0xBF then
            ((b0 - 0xE0) * 4096 + (b1 - 0x80) * 64 + (b2 - 0x80), 3)
          else (0xFFFD, 1)
        else (0xFFFD, 1)
      | _ => (0xFFFD, 1)
    else if 0xF0 ≤ b0 ∧ b0 ≤ 0xF4 then
      let lo := if b0 = 0xF0 then 0x90 else 0x80
      let hi := if b0 = 0xF4 then 0x8F else 0xBF
      match rest with
      | b1 :: b2 :: b3 :: _ =>
        if lo ≤ b1 ∧ b1 ≤ hi then
          if 0x80 ≤ b2 ∧ b2 ≤ 0xBF then
            if 0x80 ≤ b3 ∧ b3 ≤ 0xBF then
              ((b0 - 0xF0) * 262144 + (b1 - 0x80) * 4096 + (b2 - 0x80) * 64 + (b3 - 0x80), 4)
            else (0xFFFD, 1)
          else (0xFFFD, 1)
        else (0xFFFD, 1)
      | _ => (0xFFFD, 1)
    else (0xFFFD, 1)

theorem decodeRune_size_pos (s : GoStr) (h : s ≠ []) : 1 ≤ (decodeRune s).2 := by
  match s with
  | [] => exact absurd rfl h
  | [b0] => simp only [decodeRune]; (repeat' split) <;> simp
  | [b0, b1] => simp only [decodeRune]; (repeat' split) <;> simp
  | [b0, b1, b2] => simp only [decodeRune]; (repeat' split) <;> simp
  | b0 :: b1 :: b2 :: b3 :: rest => simp only [decodeRune]; (repeat' split) <;> simp

theorem decodeRune_size_le (s : GoStr) : (decodeRune s).2 ≤ s.length := by
  match s with
  | [] => simp [decodeRune]
  | [b0] => simp only [decodeRune]; (repeat' split) <;> simp
  | [b0, b1] => simp only [decodeRune]; (repeat' split) <;> simp
  | [b0, b1, b2] => simp only [decodeRune]; (repeat' split) <;> simp
  | b0 :: b1 :: b2 :: b3 :: rest => simp only [decodeRune]; (repeat' split) <;> simp

/-- The fallback decoding step of `printableRunesAndOffsets`: an invalid
byte (plain `DecodeRune` failure, `r == RuneError && size == 1`) is kept
as one raw byte / one printable unit. -/
def decodeFB (s : GoStr) : Nat × Nat :=
  let (r, size) := decodeRune s
  if r = 0xFFFD ∧ size = 1 then (s.headD 0, 1) else (r, size)

theorem decodeFB_size_pos (s : GoStr) (h : s ≠ []) : 1 ≤ (decodeFB s).2 := by
  unfold decodeFB
  dsimp only
  split
  · exact Nat.le_refl 1
  · exact decodeRune_size_pos s h

theorem decodeFB_size_le (s : GoStr) (h : s ≠ []) : (decodeFB s).2 ≤ s.length := by
  unfold decodeFB
  dsimp only
  split
  · match s with
    | [] => exact absurd rfl h
    | b :: rest => simp
  · exact decodeRune_size_le s

/-- Worker for `runeCount`: the Go loop consumes at least one byte per
iteration, so the byte length of the string bounds the iteration count;
`fuel` is that structural bound and its exhausted branch is unreachable
from `runeCount`. -/
def runeCountF : Nat → GoStr → Nat
  | _, [] => 0
  | 0, _ :: _ => 0
  | fuel + 1, b :: rest => 1 + runeCountF fuel ((b :: rest).drop (decodeRune (b :: rest)).2)

/-- `utf8.RuneCountInString`: count decode steps. -/
def runeCount (s : GoStr) : Nat := runeCountF s.length s

theorem runeCountF_congr (fuel₁ : Nat) : ∀ (fuel₂ : Nat) (s : GoStr),
    s.length ≤ fuel₁ → s.length ≤ fuel₂ → runeCountF fuel₁ s = runeCountF fuel₂ s := by
  induction fuel₁ with
  | zero =>
    intro fuel₂ s h1 h2
    cases s with
    | nil => cases fuel₂ <;> rfl
    | cons b rest => simp at h1
  | succ f ih =>
    intro fuel₂ s h1 h2
    cases s with
    | nil => cases fuel₂ <;> rfl
    | cons b rest =>
      cases fuel₂ with
      | zero => simp at h2
      | succ f₂ =>
        simp only [runeCountF]
        congr 1
        have hsz := decodeRune_size_pos (b :: rest) (by simp)
        apply ih
        · simp only [List.length_drop, List.length_cons] at *
          omega
        · simp only [List.length_drop, List.length_cons] at *
          omega

theorem runeCount_cons (b : Nat) (rest : GoStr) :
    runeCount (b :: rest) = 1 + runeCount ((b :: rest).drop (decodeRune (b :: rest)).2) := by
  show runeCountF (b :: rest).length (b :: rest) = _
  rw [List.length_cons, runeCountF]
  congr 1
  have hsz := decodeRune_size_pos (b :: rest) (by simp)
  apply runeCountF_congr
  · simp only [List.length_drop, List.length_cons]
    omega
  · exact Nat.le_refl _

/-- Go `string([]rune)` / `utf8.AppendRune`: UTF-8 encode one rune;
surrogates and out-of-range values encode the replacement character. -/
def encodeRune (r : Nat) : GoStr :=
  if r < 0x80 then [r]
  else if r < 0x800 then [0xC0 + r / 64, 0x80 + r % 64]
  else if (0xD800 ≤ r ∧ r ≤ 0xDFFF) ∨ 0x10FFFF < r then [0xEF, 0xBF, 0xBD]
  else if r < 0x10000 then [0xE0 + r / 4096, 0x80 + (r / 64) % 64, 0x80 + r % 64]
  else [0xF0 + r / 262144, 0x80 + (r / 4096) % 64, 0x80 + (r / 64) % 64, 0x80 + r % 64]

/-- Go `string(runes)` over a rune slice. -/
def encodeRunes (rs : List Nat) : GoStr := (rs.map encodeRune).flatten

/-- The byte view of a resolver-side Go string (its UTF-8 encoding). -/
def strBytes (s : GoString) : GoStr := encodeRunes (s.map Char.toNat)

/-- `strings.Index`: byte offset of the first occurrence of `sub` in `s`
(`none` models Go's `-1`; the empty needle matches at 0). -/
def indexOfSub (s sub : GoStr) : Option Nat :=
  if sub.isPrefixOf s then some 0
  else
    match s with
    | [] => none
    | _ :: rest => (indexOfSub rest sub).map (· + 1)

/-- White-space code points of `unicode.IsSpace` (byte-level side). -/
def isSpaceRune (r : Nat) : Bool :=
  r == 9 || r == 10 || r == 11 || r == 12 || r == 13 || r == 32 ||
  r == 0x85 || r == 0xA0 || r == 0x1680 ||
  (0x2000 ≤ r && r ≤ 0x200A) ||
  r == 0x2028 || r == 0x2029 || r == 0x202F || r == 0x205F || r == 0x3000

/-- Leading half of byte-level `strings.TrimSpace` (`TrimLeftFunc` with
`unicode.IsSpace`); a decode failure yields `RuneError`, which is not a
space, stopping the trim. -/
def trimLeftSpaceBF : Nat → GoStr → GoStr
  | _, [] => []
  | 0, b :: rest => b :: rest
  | fuel + 1, b :: rest =>
    if isSpaceRune (decodeRune (b :: rest)).1 then
      trimLeftSpaceBF fuel ((b :: rest).drop (decodeRune (b :: rest)).2)
    else b :: rest

def trimLeftSpaceB (s : GoStr) : GoStr := trimLeftSpaceBF s.length s

/-- `utf8.RuneStart`: not a continuation byte. -/
def runeStartB (b : Nat) : Bool := ¬ (0x80 ≤ b ∧ b ≤ 0xBF)

/-- Final step of `utf8.DecodeLastRune`: decode from the chosen start
index; if the decoded rune does not span exactly to the end of the
string, the answer is `(RuneError, 1)`. -/
def decodeLastFrom (s : GoStr) (st : Nat) : Nat × Nat :=
  let d := decodeRune (s.drop st)
  if st + d.2 = s.length then d else (0xFFFD, 1)

theorem decodeLastFrom_size_pos (s : GoStr) (st : Nat) (h : st < s.length) :
    1 ≤ (decodeLastFrom s st).2 := by
  unfold decodeLastFrom
  dsimp only
  split
  · apply decodeRune_size_pos
    intro hd
    have := congrArg List.length hd
    simp only [List.length_drop, List.length_nil] at this
    omega
  · exact Nat.le_refl 1

/-- `utf8.DecodeLastRune`: decode the final rune of a byte string. The
backward scan for a rune-start byte looks at most `UTFMax - 1` bytes back
(positions `n-2`, `n-3`, `n-4`); when no rune-start byte is found there,
Go decodes from just below the scan window, which necessarily fails to
span to the end, giving `(RuneError, 1)`. -/
def decodeLastRune : GoStr → Nat × Nat
  | [] => (0xFFFD, 0)
  | b :: rest =>
    let n := (b :: rest).length
    let lastB := (b :: rest).getLast (by simp)
    if lastB < 0x80 then (lastB, 1)
    else if 2 ≤ n ∧ runeStartB ((b :: rest).getD (n - 2) 0) then
      decodeLastFrom (b :: rest) (n - 2)
    else if 3 ≤ n ∧ runeStartB ((b :: rest).getD (n - 3) 0) then
      decodeLastFrom (b :: rest) (n - 3)
    else if 4 ≤ n ∧ runeStartB ((b :: rest).getD (n - 4) 0) then
      decodeLastFrom (b :: rest) (n - 4)
    else (0xFFFD, 1)

theorem decodeLastRune_size_pos (s : GoStr) : 1 ≤ (decodeLastRune s).2 ∨ s = [] := by
  cases s with
  | nil => exact Or.inr rfl
  | cons b rest =>
    left
    unfold decodeLastRune
    dsimp only
    split
    · exact Nat.le_refl 1
    · split
      · rename_i h2
        exact decodeLastFrom_size_pos _ _ (by simp only [List.length_cons] at *; omega)
      · split
        · rename_i h2 h3
          exact decodeLastFrom_size_pos _ _ (by simp only [List.length_cons] at *; omega)
        · split
          · rename_i h2 h3 h4
            exact decodeLastFrom_size_pos _ _ (by simp only [List.length_cons] at *; omega)
          · exact Nat.le_refl 1

/-- Trailing half of byte-level `strings.TrimSpace` (`TrimRightFunc` with
`unicode.IsSpace` via `DecodeLastRune`). -/
def trimRightSpaceBF : Nat → GoStr → GoStr
  | _, [] => []
  | 0, b :: rest => b :: rest
  | fuel + 1, b :: rest =>
    if isSpaceRune (decodeLastRune (b :: rest)).1 then
      trimRightSpaceBF fuel ((b :: rest).take ((b :: rest).length - (decodeLastRune (b :: rest)).2))
    else b :: rest

def trimRightSpaceB (s : GoStr) : GoStr := trimRightSpaceBF s.length s

/-- Byte-level `strings.TrimSpace`. -/
def trimSpaceB (s : GoStr) : GoStr := trimRightSpaceB (trimLeftSpaceB s)

/-- Inner loop of the escape-skipping branch of `printableRunesAndOffsets`:
consume bytes up to and including the first final byte (`0x40`–`0x7E`), or
to the end of input; returns the number of bytes consumed and the rest. -/
def skipEsc : GoStr → Nat × GoStr
  | [] => (0, [])
  | c :: rest =>
    if 0x40 ≤ c ∧ c ≤ 0x7E then (1, rest)
    else
      let (n, r) := skipEsc rest
      (n + 1, r)

theorem skipEsc_snd_eq_drop (s : GoStr) : (skipEsc s).2 = s.drop (skipEsc s).1 := by
  induction s with
  | nil => simp [skipEsc]
  | cons c rest ih =>
    simp only [skipEsc]
    split
    · simp
    · dsimp only
      rw [ih]
      rw [List.drop_succ_cons]

theorem skipEsc_snd_length_le (s : GoStr) : (skipEsc s).2.length ≤ s.length := by
  rw [skipEsc_snd_eq_drop]
  simp

/-- Worker for the scanning loop of `printableRunesAndOffsets`: each
iteration consumes at least one byte (two or more in the escape branch),
so the byte length bounds the iteration count; `fuel` is that structural
bound and its exhausted branch is unreachable from `praGo`. -/
def praGoF : Nat → GoStr → Nat → List Nat × List Nat
  | _, [], i => ([], [i])
  | 0, _ :: _, i => ([], [i])
  | fuel + 1, b :: rest, i =>
    if b = 27 ∧ rest ≠ [] ∧ rest.headD 0 = 91 then
      praGoF fuel (skipEsc rest.tail).2 (i + 2 + (skipEsc rest.tail).1)
    else
      ((decodeFB (b :: rest)).1 ::
         (praGoF fuel ((b :: rest).drop (decodeFB (b :: rest)).2) (i + (decodeFB (b :: rest)).2)).1,
       i :: (praGoF fuel ((b :: rest).drop (decodeFB (b :: rest)).2) (i + (decodeFB (b :: rest)).2)).2)

/-- The scanning loop of `printableRunesAndOffsets`, carrying the current
absolute byte position `i`; the sentinel end-of-text offset is produced by
the base case. -/
def praGo (s : GoStr) (i : Nat) : List Nat × List Nat := praGoF s.length s i

theorem praGoF_congr (fuel₁ : Nat) : ∀ (fuel₂ : Nat) (s : GoStr) (i : Nat),
    s.length ≤ fuel₁ → s.length ≤ fuel₂ → praGoF fuel₁ s i = praGoF fuel₂ s i := by
  induction fuel₁ with
  | zero =>
    intro fuel₂ s i h1 h2
    cases s with
    | nil => cases fuel₂ <;> rfl
    | cons b rest => simp at h1
  | succ f ih =>
    intro fuel₂ s i h1 h2
    cases s with
    | nil => cases fuel₂ <;> rfl
    | cons b rest =>
      cases fuel₂ with
      | zero => simp at h2
      | succ f₂ =>
        simp only [praGoF]
        split
        · rename_i hcond
          apply ih
          · have hsk : (skipEsc rest.tail).2.length ≤ rest.tail.length :=
              skipEsc_snd_length_le _
            have ht : rest.tail.length ≤ rest.length := by cases rest <;> simp
            simp only [List.length_cons] at h1
            omega
          · have hsk : (skipEsc rest.tail).2.length ≤ rest.tail.length :=
              skipEsc_snd_length_le _
            have ht : rest.tail.length ≤ rest.length := by cases rest <;> simp
            simp only [List.length_cons] at h2
            omega
        · have hsz := decodeFB_size_pos (b :: rest) (by simp)
          have hrec := ih f₂ ((b :: rest).drop (decodeFB (b :: rest)).2)
            (i + (decodeFB (b :: rest)).2) ?hle1 ?hle2
          case hle1 =>
            simp only [List.length_drop, List.length_cons] at *
            omega
          case hle2 =>
            simp only [List.length_drop, List.length_cons] at *
            omega
          rw [hrec]

/-- Unfolding equation of `praGo` in the escape branch. -/
theorem praGo_esc (b : Nat) (rest : GoStr) (i : Nat)
    (hcond : b = 27 ∧ rest ≠ [] ∧ rest.headD 0 = 91) :
    praGo (b :: rest) i = praGo (skipEsc rest.tail).2 (i + 2 + (skipEsc rest.tail).1) := by
  show praGoF (b :: rest).length (b :: rest) i = _
  rw [List.length_cons, praGoF, if_pos hcond]
  apply praGoF_congr
  · have hsk : (skipEsc rest.tail).2.length ≤ rest.tail.length := skipEsc_snd_length_le _
    have ht : rest.tail.length ≤ rest.length := by cases rest <;> simp
    omega
  · exact Nat.le_refl _

/-- Unfolding equation of `praGo` in the printable-rune branch. -/
theorem praGo_chr (b : Nat) (rest : GoStr) (i : Nat)
    (hcond : ¬ (b = 27 ∧ rest ≠ [] ∧ rest.headD 0 = 91)) :
    praGo (b :: rest) i =
      ((decodeFB (b :: rest)).1 ::
         (praGo ((b :: rest).drop (decodeFB (b :: rest)).2) (i + (decodeFB (b :: rest)).2)).1,
       i :: (praGo ((b :: rest).drop (decodeFB (b :: rest)).2) (i + (decodeFB (b :: rest)).2)).2) := by
  show praGoF (b :: rest).length (b :: rest) i = _
  rw [List.length_cons, praGoF, if_neg hcond]
  have hsz := decodeFB_size_pos (b :: rest) (by simp)
  have hrec : praGoF (rest.length + 1 - 1) ((b :: rest).drop (decodeFB (b :: rest)).2)
        (i + (decodeFB (b :: rest)).2) =
      praGo ((b :: rest).drop (decodeFB (b :: rest)).2) (i + (decodeFB (b :: rest)).2) := by
    apply praGoF_congr
    · simp only [List.length_drop, List.length_cons]
      omega
    · exact Nat.le_refl _
  simp only [Nat.add_sub_cancel] at hrec
  rw [hrec]

/-- `printableRunesAndOffsets` (`pager_highlight.go`): the printable runes
of `s` with ANSI `ESC [ … final` sequences skipped, together with the
parallel byte-offset table and the end-of-text sentinel. -/
def printableRunesAndOffsets (s : GoStr) : List Nat × List Nat := praGo s 0

/-- The `span` record of `highlightFocusedLink` (`end` is called `stop`
here, `end` being reserved). -/
structure Span where
  start : Nat
  stop : Nat
  ok : Bool
deriving DecidableEq

/-- The span-computing loop of `highlightFocusedLink`: for every link, in
registry order, search for its trimmed label in the printable stream
starting at the strictly advancing cursor `searchFrom`, convert the match
to a byte range of the original text through the offset table, and record
it when the bounds checks pass. -/
def spansLoop (printableStr : GoStr) (offsets : List Nat) (renderedLen : Nat) :
    List FollowableLink → Nat → List Span
  | [], _ => []
  | l :: rest, searchFrom =>
    let label := trimSpaceB (strBytes l.Label)
    if label = [] ∨ printableStr.length ≤ searchFrom then
      ⟨0, 0, false⟩ :: spansLoop printableStr offsets renderedLen rest searchFrom
    else
      match indexOfSub (printableStr.drop searchFrom) label with
      | none => ⟨0, 0, false⟩ :: spansLoop printableStr offsets renderedLen rest searchFrom
      | some relIdx =>
        let byteIdx := searchFrom + relIdx
        let searchFrom' := byteIdx + label.length
        let startRune := runeCount (printableStr.take byteIdx)
        let endRune := startRune + runeCount label
        if offsets.length - 1 < endRune then
          ⟨0, 0, false⟩ :: spansLoop printableStr offsets renderedLen rest searchFrom'
        else
          let startByte := offsets.getD startRune 0
          let stopByte := offsets.getD endRune 0
          if stopByte < startByte ∨ renderedLen < stopByte then
            ⟨0, 0, false⟩ :: spansLoop printableStr offsets renderedLen rest searchFrom'
          else
            ⟨startByte, stopByte, true⟩ :: spansLoop printableStr offsets renderedLen rest searchFrom'

/-- Reverse-video start marker `"\x1b[7m"`. -/
def reverseOn : GoStr := [27, 91, 55, 109]

/-- Reverse-video end marker `"\x1b[27m"`. -/
def reverseOff : GoStr := [27, 91, 50, 55, 109]

/-- `highlightFocusedLink` (`pager_highlight.go`). -/
def highlightFocusedLink (rendered : GoStr) (links : List FollowableLink) (focused : Int) : GoStr :=
  if focused < 0 ∨ (links.length : Int) ≤ focused then rendered
  else
    let po := printableRunesAndOffsets rendered
    if po.1 = [] then rendered
    else
      let printableStr := encodeRunes po.1
      let spans := spansLoop printableStr po.2 rendered.length links 0
      let sp := spans.getD focused.toNat ⟨0, 0, false⟩
      if sp.ok = false then rendered
      else
        rendered.take sp.start ++ reverseOn ++
          ((rendered.take sp.stop).drop sp.start) ++ reverseOff ++
          rendered.drop sp.stop


theorem skipEsc_fst_le (s : GoStr) : (skipEsc s).1 ≤ s.length := by
  induction s with
  | nil => simp [skipEsc]
  | cons c rest ih =>
    simp only [skipEsc]
    split
    · simp
    · dsimp only
      simp only [List.length_cons]
      omega

theorem getD_mem_of_lt {α : Type} (l : List α) (k : Nat) (d : α) (h : k < l.length) :
    l.getD k d ∈ l := by
  rw [List.getD_eq_getElem l d h]
  exact List.getElem_mem h

theorem praGo_inv_aux : ∀ (n : Nat) (pending : GoStr), pending.length = n → ∀ (i : Nat),
    (praGo pending i).2.length = (praGo pending i).1.length + 1 ∧
    List.Chain' (· < ·) (praGo pending i).2 ∧
    (praGo pending i).2.getLast? = some (i + pending.length) ∧
    (∀ o ∈ (praGo pending i).2, i ≤ o ∧ o ≤ i + pending.length) ∧
    (∀ k, k < (praGo pending i).1.length →
       (praGo pending i).2.getD k 0 < i + pending.length ∧
       (decodeFB (pending.drop ((praGo pending i).2.getD k 0 - i))).1 =
         (praGo pending i).1.getD k 0) := by
  intro n
  induction n using Nat.strong_induction_on with
  | _ n ihn =>
  intro pending hlen i
  cases pending with
  | nil =>
    refine ⟨by simp [praGo, praGoF], by simp [praGo, praGoF], by simp [praGo, praGoF], ?_, ?_⟩
    · intro o ho
      simp [praGo, praGoF] at ho
      omega
    · intro k hk
      simp [praGo, praGoF] at hk
  | cons b rest =>
  by_cases hcond : b = 27 ∧ rest ≠ [] ∧ rest.headD 0 = 91
  · obtain ⟨h27, hne, h91⟩ := hcond
    obtain ⟨rh, rt, rfl⟩ : ∃ rh rt, rest = rh :: rt := by
      cases rest with
      | nil => exact absurd rfl hne
      | cons x xs => exact ⟨x, xs, rfl⟩
    have hdrop : (skipEsc rt).2 = rt.drop (skipEsc rt).1 := skipEsc_snd_eq_drop rt
    have hle : (skipEsc rt).1 ≤ rt.length := skipEsc_fst_le rt
    have hlen2 : (skipEsc rt).2.length = rt.length - (skipEsc rt).1 := by
      rw [skipEsc_snd_eq_drop]; simp
    have heq : praGo (b :: rh :: rt) i =
        praGo (skipEsc rt).2 (i + 2 + (skipEsc rt).1) := by
      have := praGo_esc b (rh :: rt) i ⟨h27, by simp, by simpa using h91⟩
      simpa using this
    rw [heq]
    have ih := ihn ((skipEsc rt).2.length)
      (by simp only [List.length_cons] at hlen; omega)
      ((skipEsc rt).2) rfl (i + 2 + (skipEsc rt).1)
    obtain ⟨ih1, ih2, ih3, ih4, ih5⟩ := ih
    have hlensum : i + 2 + (skipEsc rt).1 + (skipEsc rt).2.length =
        i + (b :: rh :: rt).length := by
      simp only [List.length_cons]
      omega
    refine ⟨ih1, ih2, by rw [ih3, hlensum], ?_, ?_⟩
    · intro o ho
      have := ih4 o ho
      omega
    · intro k hk
      have h5 := ih5 k hk
      have h4 := ih4 ((praGo (skipEsc rt).2 (i + 2 + (skipEsc rt).1)).2.getD k 0)
        (getD_mem_of_lt _ k 0 (by omega))
      constructor
      · omega
      · have harith : (b :: rh :: rt).drop ((praGo (skipEsc rt).2 (i + 2 + (skipEsc rt).1)).2.getD k 0 - i) =
            (skipEsc rt).2.drop ((praGo (skipEsc rt).2 (i + 2 + (skipEsc rt).1)).2.getD k 0 - (i + 2 + (skipEsc rt).1)) := by
          set o := (praGo (skipEsc rt).2 (i + 2 + (skipEsc rt).1)).2.getD k 0 with ho
          have h2o : i + 2 + (skipEsc rt).1 ≤ o := h4.1
          rw [hdrop]
          rw [List.drop_drop]
          have : o - i = (skipEsc rt).1 + (o - (i + 2 + (skipEsc rt).1)) + 2 := by omega
          rw [this]
          rfl
        rw [harith]
        exact h5.2
  · have hsz1 : 1 ≤ (decodeFB (b :: rest)).2 := decodeFB_size_pos _ (by simp)
    have hszle : (decodeFB (b :: rest)).2 ≤ (b :: rest).length := decodeFB_size_le _ (by simp)
    have heq := praGo_chr b rest i hcond
    rw [heq]
    have ih := ihn (((b :: rest).drop (decodeFB (b :: rest)).2).length)
      (by simp only [List.length_drop, List.length_cons] at *; omega)
      ((b :: rest).drop (decodeFB (b :: rest)).2) rfl (i + (decodeFB (b :: rest)).2)
    obtain ⟨ih1, ih2, ih3, ih4, ih5⟩ := ih
    set sz := (decodeFB (b :: rest)).2 with hszdef
    set pr := praGo ((b :: rest).drop sz) (i + sz) with hprdef
    have hdroplen : ((b :: rest).drop sz).length = (b :: rest).length - sz := by simp
    have hne2 : pr.2 ≠ [] := by
      intro hemp
      rw [hemp] at ih1
      simp at ih1
    constructor
    · simp only [List.length_cons]; omega
    constructor
    · rw [List.chain'_cons']
      refine ⟨?_, ih2⟩
      intro y hy
      have hmem : y ∈ pr.2 := by
        cases hpr : pr.2 with
        | nil => exact absurd hpr hne2
        | cons a l =>
          rw [hpr] at hy
          simp only [List.head?_cons, Option.mem_def, Option.some.injEq] at hy
          rw [← hy]
          exact List.mem_cons_self _ _
      have := ih4 y hmem
      omega
    constructor
    · cases hpr : pr.2 with
      | nil => exact absurd hpr hne2
      | cons a l =>
        rw [hpr] at ih3
        dsimp only
        rw [List.getLast?_cons_cons, ih3]
        congr 1
        simp only [List.length_drop] at hdroplen ⊢
        omega
    constructor
    · intro o ho
      simp only [List.mem_cons] at ho
      rcases ho with rfl | ho
      · simp only [List.length_cons]; omega
      · have := ih4 o ho
        simp only [List.length_drop] at this ⊢
        omega
    · intro k hk
      cases k with
      | zero =>
        constructor
        · simp only [List.getD_cons_zero, List.length_cons]; omega
        · simp only [List.getD_cons_zero, Nat.sub_self, List.drop_zero, List.getD_cons_zero]
      | succ k =>
        simp only [List.length_cons] at hk
        have hk' : k < pr.1.length := by omega
        have h5 := ih5 k hk'
        have h4 := ih4 (pr.2.getD k 0) (getD_mem_of_lt pr.2 k 0 (by omega))
        simp only [List.getD_cons_succ]
        constructor
        · have := h5.1
          simp only [List.length_drop] at this
          omega
        · set o := pr.2.getD k 0 with ho
          have h2o : i + sz ≤ o := h4.1
          have harith : (b :: rest).drop (o - i) =
              ((b :: rest).drop sz).drop (o - (i + sz)) := by
            rw [List.drop_drop]
            congr 1
            omega
          rw [harith]
          exact h5.2

theorem praGo_inv (pending : GoStr) (i : Nat) :
    (praGo pending i).2.length = (praGo pending i).1.length + 1 ∧
    List.Chain' (· < ·) (praGo pending i).2 ∧
    (praGo pending i).2.getLast? = some (i + pending.length) ∧
    (∀ o ∈ (praGo pending i).2, i ≤ o ∧ o ≤ i + pending.length) ∧
    (∀ k, k < (praGo pending i).1.length →
       (praGo pending i).2.getD k 0 < i + pending.length ∧
       (decodeFB (pending.drop ((praGo pending i).2.getD k 0 - i))).1 =
         (praGo pending i).1.getD k 0) :=
  praGo_inv_aux pending.length pending rfl i


theorem spansLoop_ok_bounds (P : GoStr) (offs : List Nat) (renderedLen : Nat)
    (links : List FollowableLink) (searchFrom : Nat) (hoffs : offs ≠ []) :
    ∀ sp ∈ spansLoop P offs renderedLen links searchFrom,
      sp.ok = true → sp.start ≤ sp.stop ∧ sp.stop ≤ renderedLen ∧
        sp.start ∈ offs ∧ sp.stop ∈ offs := by
  have hlen1 : 1 ≤ offs.length := by
    cases offs with
    | nil => exact absurd rfl hoffs
    | cons a l => simp
  induction links generalizing searchFrom with
  | nil => intro sp hsp; simp [spansLoop] at hsp
  | cons l rest ih =>
    intro sp hsp hok
    rw [spansLoop] at hsp
    split at hsp
    · rcases List.mem_cons.mp hsp with rfl | hmem
      · simp at hok
      · exact ih _ sp hmem hok
    · split at hsp
      · rcases List.mem_cons.mp hsp with rfl | hmem
        · simp at hok
        · exact ih _ sp hmem hok
      · dsimp only at hsp
        split at hsp
        · rcases List.mem_cons.mp hsp with rfl | hmem
          · simp at hok
          · exact ih _ sp hmem hok
        · split at hsp
          · rcases List.mem_cons.mp hsp with rfl | hmem
            · simp at hok
            · exact ih _ sp hmem hok
          · rcases List.mem_cons.mp hsp with rfl | hmem
            · rename_i hoob hbyte
              push_neg at hbyte
              push_neg at hoob
              refine ⟨hbyte.1, hbyte.2, ?_, ?_⟩
              · apply getD_mem_of_lt
                omega
              · apply getD_mem_of_lt
                omega
            · exact ih _ sp hmem hok

/-! ## Navigation (`pager.go`), pager state machine

The viewport/scrolling widget, status-message timer, file watcher and
document loader are external collaborators (spec §1, §5, §6): the pager
only reads/writes the scroll offset, sets the content string, and emits
opaque commands; they are modelled accordingly. -/

/-- Modelled from the spec: the external viewport widget. The pager reads
and writes `yOffset`, replaces `content`, and uses the widget's
`GotoTop` / `PastBottom` / `GotoBottom`; `maxYOffset` is the widget's
maximal scroll offset for its current content. -/
structure Viewport where
  yOffset : Int
  maxYOffset : Int
  content : GoStr

/-- `viewport.GotoTop`. -/
def gotoTop (v : Viewport) : Viewport := { v with yOffset := 0 }

/-- `viewport.PastBottom`. -/
def pastBottom (v : Viewport) : Bool := v.maxYOffset < v.yOffset

/-- `viewport.GotoBottom` (clamps to the maximal offset, at least 0). -/
def gotoBottom (v : Viewport) : Viewport := { v with yOffset := max 0 v.maxYOffset }

/-- `viewport.SetContent`. -/
def setContent (s : GoStr) (v : Viewport) : Viewport := { v with content := s }

/-- The fields of the shared `commonModel` the pager reads here. -/
structure CommonModel where
  cwd : GoString
  highPerformancePager : Bool

/-- The fields of the `markdown` document record used by navigation. -/
structure Markdown where
  localPath : GoString
  Note : GoString
deriving DecidableEq

/-- `navEntry` (`pager.go`): a history entry. -/
structure NavEntry where
  Path : GoString
  YOffset : Int
deriving DecidableEq

/-- `pagerState` (`pager.go`). -/
inductive PagerState where
  | browse
  | statusMessage
deriving DecidableEq

/-- The navigation-relevant fields of `pagerModel`. -/
structure PagerModel where
  common : CommonModel
  viewport : Viewport
  state : PagerState
  statusMessage : GoString
  currentDocument : Markdown
  rendered : GoStr
  links : List FollowableLink
  focusedLink : Int
  history : List NavEntry
  pendingRestoreYOffset : Option Int

/-- The commands the modelled update steps emit (`tea.Cmd` values are
opaque requests executed by the external event loop). -/
inductive Cmd where
  | loadLocalMarkdown (doc : Markdown)
  | statusMessageTimeout
  | viewportSync
  | startWatching
deriving DecidableEq

/-- The messages modelled here (key presses and the render-complete
notification). -/
inductive Msg where
  | keyEnter
  | keyBackspace
  | keyTab
  | keyShiftTab
  | contentRendered (s : GoStr)

/-- `applyRenderedContent` (`pager.go`): pass the rendered text through the
highlighter when a link is focused, and hand it to the viewport. -/
def applyRenderedContent (m : PagerModel) : PagerModel :=
  let content :=
    if 0 ≤ m.focusedLink then highlightFocusedLink m.rendered m.links m.focusedLink
    else m.rendered
  { m with viewport := setContent content m.viewport }

/-- `showStatusMessage` (`pager.go`): switch to the status-message state,
record the message, and request the timeout wait (the timer itself is an
external resource). -/
def showStatusMessage (m : PagerModel) (msg : GoString) : PagerModel × Cmd :=
  ({ m with state := .statusMessage, statusMessage := msg }, .statusMessageTimeout)

/-- Default link record (Go's zero value), for the in-range indexing of
`m.links[m.focusedLink]`. -/
def zeroLink : FollowableLink :=
  { Href := [], Path := [], Fragment := [], Label := [], ResolvedPath := [], ResolvedNote := [] }

/-- `followFocusedLink` (`pager.go`): a focused link with an empty
`ResolvedPath` is a no-op; otherwise push the current document and scroll
offset onto history (when the document has a local path), clear focus,
scroll to top, clear any pending restore, and request the load of the
link's resolved target. -/
def followFocusedLink (m : PagerModel) : PagerModel × Option Cmd :=
  let l := m.links.getD m.focusedLink.toNat zeroLink
  if l.ResolvedPath = [] then (m, none)
  else
    let m1 :=
      if m.currentDocument.localPath ≠ [] then
        { m with history :=
            m.history ++ [⟨m.currentDocument.localPath, m.viewport.yOffset⟩] }
      else m
    let m2 := { m1 with focusedLink := -1, viewport := gotoTop m1.viewport,
                        pendingRestoreYOffset := none }
    (m2, some (.loadLocalMarkdown ⟨l.ResolvedPath, l.ResolvedNote⟩))

/-- `goBack` (`pager.go`): pop the most recent history entry, clear focus,
remember its scroll offset for restoration after the reload, scroll to
top, and request the load of the popped path. -/
def goBack (m : PagerModel) : PagerModel × Option Cmd :=
  match m.history.getLast? with
  | none => (m, none)
  | some last =>
    let m1 := { m with history := m.history.dropLast, focusedLink := -1,
                       pendingRestoreYOffset := some last.YOffset,
                       viewport := gotoTop m.viewport }
    (m1, some (.loadLocalMarkdown ⟨last.Path, stripAbsolutePath last.Path m.common.cwd⟩))

/-- `update` (`pager.go`), restricted to the modelled messages. The final
`m.viewport.Update(msg)` of the Go code is the external widget's own
handling; none of the modelled messages is in the widget's key map, so it
leaves the model unchanged and produces no command. Early `return`s in
the Go code (follow, back) skip that call anyway. -/
def update (m : PagerModel) : Msg → PagerModel × List Cmd
  | .keyEnter =>
    if 0 ≤ m.focusedLink ∧ m.focusedLink < (m.links.length : Int) then
      let r := followFocusedLink m
      (r.1, r.2.toList)
    else if 0 < m.links.length then
      let r := showStatusMessage m (gs "Tab to select a link")
      (r.1, [r.2])
    else (m, [])
  | .keyBackspace =>
    if 0 < m.history.length then
      let r := goBack m
      (r.1, r.2.toList)
    else (m, [])
  | .keyTab =>
    if m.links.length = 0 then
      let r := showStatusMessage m (gs "No followable links")
      (r.1, [r.2])
    else
      let next : Int :=
        if m.focusedLink < 0 then 0 else (m.focusedLink + 1) % (m.links.length : Int)
      let m1 := applyRenderedContent { m with focusedLink := next }
      let r := showStatusMessage m1
        (gs "Open: " ++ (m1.links.getD next.toNat zeroLink).ResolvedNote)
      (r.1, [r.2])
  | .keyShiftTab =>
    if m.links.length = 0 then
      let r := showStatusMessage m (gs "No followable links")
      (r.1, [r.2])
    else
      let next : Int :=
        if m.focusedLink < 0 then (m.links.length : Int) - 1
        else if m.focusedLink - 1 < 0 then (m.links.length : Int) - 1
        else m.focusedLink - 1
      let m1 := applyRenderedContent { m with focusedLink := next }
      let r := showStatusMessage m1
        (gs "Open: " ++ (m1.links.getD next.toNat zeroLink).ResolvedNote)
      (r.1, [r.2])
  | .contentRendered s =>
    let m1 := applyRenderedContent { m with rendered := s }
    let m2 :=
      match m1.pendingRestoreYOffset with
      | some y =>
        let vp := { m1.viewport with yOffset := y }
        let vp := if pastBottom vp then gotoBottom vp else vp
        { m1 with viewport := vp, pendingRestoreYOffset := none }
      | none => m1
    (m2, (if m2.common.highPerformancePager then [Cmd.viewportSync] else []) ++
         [Cmd.startWatching])

end Glow

namespace Glow

/-! ## Claim theorems: highlighter range guard and offset-table invariant -/

/-- C5: for every rendered text, registry and focused index outside
`[0, len(registry))` — negative (in particular `-1`) or at least the
registry length — `highlightFocusedLink` returns its input unchanged,
byte for byte. -/
theorem c5_highlight_out_of_range (rendered : GoStr) (links : List FollowableLink)
    (focused : Int) (h : focused < 0 ∨ (links.length : Int) ≤ focused) :
    highlightFocusedLink rendered links focused = rendered := by
  unfold highlightFocusedLink
  rw [if_pos h]

/-- Witness for C5 at `focusedIndex = -1` on a concrete rendered text and
one-link registry. -/
theorem c5_highlight_out_of_range_witness :
    highlightFocusedLink [104, 105] [zeroLink] (-1) = [104, 105] :=
  c5_highlight_out_of_range [104, 105] [zeroLink] (-1) (Or.inl (by decide))

/-- C10 (implicit invariant of `printableRunesAndOffsets`): the offset
table has exactly one more entry than the printable-rune list, is
strictly increasing, ends with the sentinel `len(s)`, and each
non-sentinel entry `offsets[i]` is a byte index into `s` (below `len(s)`)
at which the scanner reads printable rune `i` (the fallback-aware decode
of the suffix starting there yields `runes[i]`). Consequently every byte
range an ok span of the highlighter's span loop derives from the table
satisfies `start ≤ stop ≤ len(s)` (`0 ≤ start` holds in `Nat`). -/
theorem c10_offsets_invariant (s : GoStr) :
    (printableRunesAndOffsets s).2.length = (printableRunesAndOffsets s).1.length + 1 ∧
    List.Chain' (· < ·) (printableRunesAndOffsets s).2 ∧
    (printableRunesAndOffsets s).2.getLast? = some s.length ∧
    (∀ i, i < (printableRunesAndOffsets s).1.length →
       (printableRunesAndOffsets s).2.getD i 0 < s.length ∧
       (decodeFB (s.drop ((printableRunesAndOffsets s).2.getD i 0))).1 =
         (printableRunesAndOffsets s).1.getD i 0) ∧
    (∀ (links : List FollowableLink) (sp : Span),
       sp ∈ spansLoop (encodeRunes (printableRunesAndOffsets s).1)
              (printableRunesAndOffsets s).2 s.length links 0 →
       sp.ok = true → sp.start ≤ sp.stop ∧ sp.stop ≤ s.length) := by
  obtain ⟨h1, h2, h3, h4, h5⟩ := praGo_inv s 0
  have hzero : (0 : Nat) + s.length = s.length := by omega
  rw [hzero] at h3 h4 h5
  refine ⟨h1, h2, h3, ?_, ?_⟩
  · intro i hi
    have := h5 i hi
    simpa using this
  · intro links sp hsp hok
    have hne : (printableRunesAndOffsets s).2 ≠ [] := by
      intro hemp
      simp only [printableRunesAndOffsets] at hemp
      rw [hemp] at h1
      simp at h1
    have := spansLoop_ok_bounds (encodeRunes (printableRunesAndOffsets s).1)
      (printableRunesAndOffsets s).2 s.length links 0 hne sp hsp hok
    exact ⟨this.1, this.2.1⟩

/-- Witness for C10 on a concrete string with an escape sequence
(`"A" ESC [ m "B"`), at index 1, with a one-link registry whose span is
recorded ok. -/
theorem c10_offsets_invariant_witness :
    ((printableRunesAndOffsets [65, 27, 91, 109, 66]).2.getD 1 0 < 5 ∧
      (decodeFB ([65, 27, 91, 109, 66].drop
        ((printableRunesAndOffsets [65, 27, 91, 109, 66]).2.getD 1 0))).1 =
        (printableRunesAndOffsets [65, 27, 91, 109, 66]).1.getD 1 0) ∧
    (Span.mk 0 4 true).start ≤ (Span.mk 0 4 true).stop ∧
      (Span.mk 0 4 true).stop ≤ [65, 27, 91, 109, 66].length :=
  ⟨(c10_offsets_invariant [65, 27, 91, 109, 66]).2.2.2.1 1 (by decide),
   (c10_offsets_invariant [65, 27, 91, 109, 66]).2.2.2.2
     [{ zeroLink with Label := gs "A" }] (Span.mk 0 4 true) (by decide) (by decide)⟩

end Glow

namespace Glow

/-! ## Claim theorems: navigation on an empty history (C9) -/

/-- A sample pager model with empty history and an empty registry. -/
def samplePagerEmpty : PagerModel :=
  { common := { cwd := gs "/r", highPerformancePager := false }
    viewport := { yOffset := 3, maxYOffset := 10, content := [] }
    state := .browse
    statusMessage := []
    currentDocument := { localPath := gs "/r/cur.md", Note := gs "cur.md" }
    rendered := [104, 105]
    links := []
    focusedLink := -1
    history := []
    pendingRestoreYOffset := none }

/-- Counterexample to C9 as stated: pressing back with an empty history
stack leaves the pager state untouched and emits NO command at all — in
particular no transient status message is shown (the state stays
`browse`, unlike the status-message path taken by focus-cycling on an
empty registry). The claim asserts a visible transient status message is
produced; the code's `keyBackspace` case has no `else` branch. -/
theorem c9_counterexample :
    update samplePagerEmpty .keyBackspace = (samplePagerEmpty, []) ∧
    (update samplePagerEmpty .keyBackspace).1.state = PagerState.browse ∧
    (update samplePagerEmpty .keyBackspace).2 = [] := by
  refine ⟨?_, by rfl, by rfl⟩
  rfl

/-- C9 as amended: pressing back with an empty navigation history is a
silent no-op — the model is unchanged and no command (hence no status
message) is emitted — whereas focus-cycling on an empty registry shows
the transient "No followable links" status message, switching the pager
into the status-message state and starting the timeout. -/
theorem c9_empty_back_silent_noop (m m' : PagerModel)
    (hb : m.history = []) (ht : m'.links = []) :
    update m .keyBackspace = (m, []) ∧
    (update m' .keyTab).1.state = PagerState.statusMessage ∧
    (update m' .keyTab).1.statusMessage = gs "No followable links" ∧
    (update m' .keyTab).2 = [Cmd.statusMessageTimeout] := by
  refine ⟨?_, ?_, ?_, ?_⟩
  · unfold update
    rw [hb]
    simp
  · unfold update
    rw [ht]
    simp [showStatusMessage]
  · unfold update
    rw [ht]
    simp [showStatusMessage]
  · unfold update
    rw [ht]
    simp [showStatusMessage]

/-- Witness for the amended C9 on the concrete sample model. -/
theorem c9_empty_back_silent_noop_witness :
    update samplePagerEmpty .keyBackspace = (samplePagerEmpty, []) ∧
    (update samplePagerEmpty .keyTab).1.state = PagerState.statusMessage ∧
    (update samplePagerEmpty .keyTab).1.statusMessage = gs "No followable links" ∧
    (update samplePagerEmpty .keyTab).2 = [Cmd.statusMessageTimeout] :=
  c9_empty_back_silent_noop samplePagerEmpty samplePagerEmpty rfl rfl

end Glow


namespace Glow

/-! ## Claim theorems: href normalization (C7) -/

theorem dropWhile_getLast?_of_ne_nil {α : Type} (p : α → Bool) (l : List α)
    (h : l.dropWhile p ≠ []) : (l.dropWhile p).getLast? = l.getLast? := by
  induction l with
  | nil => simp [List.dropWhile] at h
  | cons c rest ih =>
    by_cases hp : p c
    · rw [List.dropWhile_cons_of_pos hp] at h ⊢
      rw [ih h]
      cases rest with
      | nil => rw [List.dropWhile_nil] at h; exact absurd rfl h
      | cons x xs => rw [List.getLast?_cons_cons]
    · rw [List.dropWhile_cons_of_neg hp]

theorem head?_dropWhile_false {α : Type} (p : α → Bool) (l : List α) (c : α)
    (h : (l.dropWhile p).head? = some c) : p c = false := by
  induction l with
  | nil => simp [List.dropWhile] at h
  | cons x rest ih =>
    by_cases hp : p x
    · rw [List.dropWhile_cons_of_pos hp] at h
      exact ih h
    · rw [List.dropWhile_cons_of_neg hp] at h
      simp only [List.head?_cons, Option.some.injEq] at h
      rw [← h]
      simp only [Bool.not_eq_true] at hp
      exact hp

/-- Modelled from the spec (the reading claim C7 asserts): strip exactly
one layer of matched angle-bracket delimiters, if present. -/
def stripOneAngleLayer (s : GoString) : GoString :=
  match s with
  | '<' :: rest => if rest.getLast? = some '>' then rest.dropLast else s
  | _ => s

/-- Counterexample to C7 as stated: on `"<<a.md>>"` the code's
normalization (`strings.Trim` with cutset `"<>"`) yields `"a.md"` — both
layers and any unmatched brackets are removed — not the one-layer result
`"<a.md>"`; behaviourally, `isFollowableHref` accepts `"<<a.md>>"`, which
it could not if only one layer were stripped (the suffix would be
`".md>"`). -/
theorem c7_counterexample :
    trimAngles (trimSpace (gs "<<a.md>>")) = gs "a.md" ∧
    stripOneAngleLayer (trimSpace (gs "<<a.md>>")) = gs "<a.md>" ∧
    ¬ trimAngles (trimSpace (gs "<<a.md>>")) =
        stripOneAngleLayer (trimSpace (gs "<<a.md>>")) ∧
    isFollowableHref (gs "<<a.md>>") = true ∧
    isFollowableHref (gs "<a.md>") = true ∧
    hasSuffix (toLower (gs "<a.md>")) (gs ".md") = false := by
  refine ⟨by decide, by decide, by decide, by decide, by decide, by decide⟩

/-- C7 as amended: the normalization shared by `resolveFollowableLink` and
`isFollowableHref` first trims surrounding whitespace and then strips ALL
leading and trailing angle-bracket characters, matched or not: the
whitespace-trimmed href splits as `a ++ core ++ b` where `a` and `b`
consist solely of angle brackets and the remaining `core` — the string the
classifier actually inspects — neither starts nor ends with an angle
bracket. -/
theorem c7_amended_trim_all_angles (s : GoString) :
    ∃ a b, trimSpace s = a ++ trimAngles (trimSpace s) ++ b ∧
      (∀ c ∈ a, isAngle c = true) ∧ (∀ c ∈ b, isAngle c = true) ∧
      (∀ c, (trimAngles (trimSpace s)).head? = some c → isAngle c = false) ∧
      (∀ c, (trimAngles (trimSpace s)).getLast? = some c → isAngle c = false) := by
  set t := trimSpace s with ht
  have hsplit : t.dropWhile isAngle =
      trimAngles t ++ ((t.dropWhile isAngle).reverse.takeWhile isAngle).reverse := by
    unfold trimAngles
    have h0 := List.takeWhile_append_dropWhile (p := isAngle)
      (l := (t.dropWhile isAngle).reverse)
    have h2 := congrArg List.reverse h0
    rw [List.reverse_append, List.reverse_reverse] at h2
    exact h2.symm
  refine ⟨t.takeWhile isAngle, ((t.dropWhile isAngle).reverse.takeWhile isAngle).reverse,
    ?_, ?_, ?_, ?_, ?_⟩
  · calc t = t.takeWhile isAngle ++ t.dropWhile isAngle :=
          (List.takeWhile_append_dropWhile (p := isAngle) (l := t)).symm
    _ = t.takeWhile isAngle ++ (trimAngles t ++
          ((t.dropWhile isAngle).reverse.takeWhile isAngle).reverse) := by rw [← hsplit]
    _ = t.takeWhile isAngle ++ trimAngles t ++
          ((t.dropWhile isAngle).reverse.takeWhile isAngle).reverse := by
        rw [List.append_assoc]
  · intro c hc
    exact List.mem_takeWhile_imp hc
  · intro c hc
    rw [List.mem_reverse] at hc
    exact List.mem_takeWhile_imp hc
  · intro c hc
    unfold trimAngles at hc
    rw [List.head?_reverse] at hc
    by_cases hv : (t.dropWhile isAngle).reverse.dropWhile isAngle = []
    · rw [hv] at hc
      simp at hc
    · rw [dropWhile_getLast?_of_ne_nil _ _ hv] at hc
      rw [List.getLast?_reverse] at hc
      exact head?_dropWhile_false _ _ _ hc
  · intro c hc
    unfold trimAngles at hc
    rw [List.getLast?_reverse] at hc
    exact head?_dropWhile_false _ _ _ hc


/-- Witness for the amended C7 at the concrete href `"<<a.md>>"`. -/
theorem c7_amended_trim_all_angles_witness :
    ∃ a b, trimSpace (gs "<<a.md>>") = a ++ trimAngles (trimSpace (gs "<<a.md>>")) ++ b ∧
      (∀ c ∈ a, isAngle c = true) ∧ (∀ c ∈ b, isAngle c = true) ∧
      (∀ c, (trimAngles (trimSpace (gs "<<a.md>>"))).head? = some c → isAngle c = false) ∧
      (∀ c, (trimAngles (trimSpace (gs "<<a.md>>"))).getLast? = some c → isAngle c = false) :=
  c7_amended_trim_all_angles (gs "<<a.md>>")

end Glow

deriving instance DecidableEq for Except

namespace Glow

/-! ## Claim theorems: href classification and percent-decoding (C2, C6) -/

/-- A concrete filesystem for evaluation: working directory `/w`; the
directory `/r` and the regular files `/r/a.md` and `/r/a%zz.md` exist and
involve no symlinks. -/
def fsSample : FS :=
  { cwd := some (gs "/w")
    evalSymlinks := fun p =>
      if p = gs "/r" ∨ p = gs "/r/a.md" ∨ p = gs "/r/a%zz.md" then some p else none
    stat := fun p =>
      if p = gs "/r/a.md" ∨ p = gs "/r/a%zz.md" then some ⟨true⟩
      else if p = gs "/r" then some ⟨false⟩
      else none }

/-- Modelled from the spec (the condition exactly as claim C2 words it,
evaluated on the merely whitespace-trimmed href): contains `://`, or
begins case-insensitively with `mailto:`, or the path portion before the
first `#` is absolute, or that path portion does not end
case-insensitively in `.md` or `.markdown`. -/
def c2ClaimCondition (href : GoString) : Bool :=
  let t := trimSpace href
  goContains t (gs "://") || hasPrefix (toLower t) (gs "mailto:") ||
  isAbsoluteOrUNCPath (splitFragment t).1 ||
  !(hasSuffix (toLower (splitFragment t).1) (gs ".md") ||
    hasSuffix (toLower (splitFragment t).1) (gs ".markdown"))

/-- Counterexample to C2 as stated: for `href = "<a.md>"` the trimmed href
satisfies the claim's rejection condition (its path portion `"<a.md>"`
ends in `">"`, not `.md`/`.markdown`), yet `resolveFollowableLink`
strips the angle brackets before classifying and accepts the link
(ok = true) when `/r/a.md` exists. -/
theorem c2_counterexample :
    c2ClaimCondition (gs "<a.md>") = true ∧
    resolveFollowableLink fsSample (gs "/r") (gs "/r/cur.md") (gs "<a.md>") =
      .ok (some { Href := gs "a.md", Path := gs "a.md", Fragment := [], Label := [],
                  ResolvedPath := gs "/r/a.md", ResolvedNote := gs "a.md" }) :=
  ⟨by decide, by decide⟩

/-- C2 as amended: the rejection conditions hold of the href as the
classifier sees it — whitespace-trimmed and angle-bracket-stripped by
`resolveFollowableLink`, then re-trimmed and re-stripped identically by
`isFollowableHref` (stripping may expose new whitespace, so the two
passes matter). Whenever that normalized href contains `://`, or begins
case-insensitively with `mailto:`, or its path portion before the first
`#` is absolute (leading `/`, leading `\\`, a drive-letter prefix, or
platform-absolute), or its path portion does not end case-insensitively
in `.md` or `.markdown`, `resolveFollowableLink` returns ok = false with
no error, before touching the filesystem. -/
theorem c2_amended_reject_unfollowable (fs : FS) (rootDir cur href : GoString)
    (h : goContains (trimAngles (trimSpace (trimAngles (trimSpace href)))) (gs "://") = true ∨
         hasPrefix (toLower (trimAngles (trimSpace (trimAngles (trimSpace href)))))
           (gs "mailto:") = true ∨
         isAbsoluteOrUNCPath
           (splitFragment (trimAngles (trimSpace (trimAngles (trimSpace href))))).1 = true ∨
         (hasSuffix (toLower (splitFragment
             (trimAngles (trimSpace (trimAngles (trimSpace href))))).1) (gs ".md") = false ∧
          hasSuffix (toLower (splitFragment
             (trimAngles (trimSpace (trimAngles (trimSpace href))))).1) (gs ".markdown") = false)) :
    resolveFollowableLink fs rootDir cur href = .ok none := by
  have hclass : isFollowableHref (trimAngles (trimSpace href)) = false := by
    unfold isFollowableHref
    rcases h with h | h | h | h
    · simp [h]
    · simp [h]
    · simp [h]
    · simp [h.1, h.2]
  unfold resolveFollowableLink
  simp only [hclass]
  simp

/-- Witness for the amended C2 at the concrete href `" x.txt "` (wrong
extension after normalization). -/
theorem c2_amended_reject_unfollowable_witness :
    resolveFollowableLink fsSample (gs "/r") (gs "/r/cur.md") (gs " x.txt ") = .ok none :=
  c2_amended_reject_unfollowable fsSample (gs "/r") (gs "/r/cur.md") (gs " x.txt ")
    (by decide)

/-- C6: whenever the classifier accepts the href and its trimmed path
portion is non-empty and contains a `%`, `resolveFollowableLink` resolves
the percent-decoded path when `url.PathUnescape` succeeds and falls back
to the raw undecoded path when it fails (`Option.getD`), continuing with
joining and resolution either way — a decode failure never rejects the
link and never produces an error. -/
theorem c6_percent_decode (fs : FS) (rootDir cur href : GoString)
    (h1 : isFollowableHref (trimAngles (trimSpace href)) = true)
    (h2 : ¬ trimSpace (splitFragment (trimAngles (trimSpace href))).1 = [])
    (h3 : (trimSpace (splitFragment (trimAngles (trimSpace href))).1).contains '%' = true) :
    resolveFollowableLink fs rootDir cur href =
      resolveCandidatePath fs rootDir cur
        ((pathUnescape (trimSpace (splitFragment (trimAngles (trimSpace href))).1)).getD
           (trimSpace (splitFragment (trimAngles (trimSpace href))).1))
        (splitFragment (trimAngles (trimSpace href))).2
        (trimAngles (trimSpace href)) := by
  unfold resolveFollowableLink
  simp only [h1]
  rw [if_neg (by simp)]
  rw [if_neg h2]
  rw [if_pos h3]

/-- Witness for C6 at the concrete href `"a%zz.md"`, whose `%zz` makes
`url.PathUnescape` fail: the raw path is used, resolution continues, and
the link resolves successfully against the existing file `/r/a%zz.md`. -/
theorem c6_percent_decode_witness :
    (pathUnescape (gs "a%zz.md") = none ∧
     resolveFollowableLink fsSample (gs "/r") (gs "/r/cur.md") (gs "a%zz.md") =
       .ok (some { Href := gs "a%zz.md", Path := gs "a%zz.md", Fragment := [], Label := [],
                   ResolvedPath := gs "/r/a%zz.md", ResolvedNote := gs "a%zz.md" })) ∧
    resolveFollowableLink fsSample (gs "/r") (gs "/r/cur.md") (gs "a%zz.md") =
      resolveCandidatePath fsSample (gs "/r") (gs "/r/cur.md")
        ((pathUnescape (trimSpace (splitFragment (trimAngles (trimSpace (gs "a%zz.md")))).1)).getD
           (trimSpace (splitFragment (trimAngles (trimSpace (gs "a%zz.md")))).1))
        (splitFragment (trimAngles (trimSpace (gs "a%zz.md")))).2
        (trimAngles (trimSpace (gs "a%zz.md"))) :=
  ⟨⟨by decide, by decide⟩,
   c6_percent_decode fsSample (gs "/r") (gs "/r/cur.md") (gs "a%zz.md")
     (by decide) (by decide) (by decide)⟩

end Glow

namespace Glow

/-! ## Claim theorems: the registry invariant (C1) -/

theorem isAbsPath_clean (p : GoString) (h : isAbsPath p = true) :
    isAbsPath (clean p) = true := by
  have hne : ¬ p = [] := by
    intro he
    rw [he] at h
    simp [isAbsPath] at h
  unfold clean
  rw [if_neg hne]
  simp only [h, if_true]
  rfl

theorem isAbsPath_joinPath (a b : GoString) (h : isAbsPath a = true) :
    isAbsPath (joinPath a b) = true := by
  have hne : ¬ a = [] := by
    intro he
    rw [he] at h
    simp [isAbsPath] at h
  unfold joinPath
  rw [if_neg (fun hc => hne hc.1), if_neg hne]
  apply isAbsPath_clean
  cases a with
  | nil => exact absurd rfl hne
  | cons c rest => exact h

theorem absPath_isAbs (fs : FS) (hcwd : ∀ d, fs.cwd = some d → isAbsPath d = true)
    (p q : GoString) (h : absPath fs p = some q) : isAbsPath q = true := by
  unfold absPath at h
  split at h
  · rename_i hab
    injection h with h'
    rw [← h']
    exact isAbsPath_clean p hab
  · cases hc : fs.cwd with
    | none => rw [hc] at h; simp at h
    | some wd =>
      rw [hc] at h
      simp only [Option.map_some'] at h
      injection h with h'
      rw [← h']
      exact isAbsPath_joinPath wd p (hcwd wd hc)

theorem resolveCandidatePath_ok (fs : FS) (root cur path frag href : GoString)
    (l : FollowableLink)
    (h : resolveCandidatePath fs root cur path frag href = .ok (some l)) :
    ∃ rootAbs0 resAbs0,
      absPath fs root = some rootAbs0 ∧
      absPath fs (clean (joinPath (dirPath cur) path)) = some resAbs0 ∧
      l.ResolvedPath = (fs.evalSymlinks resAbs0).getD resAbs0 ∧
      (∃ r, rel ((fs.evalSymlinks rootAbs0).getD rootAbs0) l.ResolvedPath = some r ∧
            ¬ r = gs ".." ∧ ¬ hasPrefix r (gs "../") = true) ∧
      (∃ info, fs.stat l.ResolvedPath = some info ∧ info.isRegular = true) := by
  unfold resolveCandidatePath at h
  simp only [] at h
  split at h
  · exact absurd h (by simp)
  · rename_i rootAbs0 hroot
    split at h
    · exact absurd h (by simp)
    · rename_i resAbs0 hres
      refine ⟨rootAbs0, resAbs0, hroot, hres, ?_⟩
      split at h
      · exact absurd h (by simp)
      · rename_i r hrel
        split at h
        · exact absurd h (by simp)
        · rename_i hnotdd
          split at h
          · exact absurd h (by simp)
          · rename_i info hstat
            split at h
            · exact absurd h (by simp)
            · rename_i hreg
              simp only [Except.ok.injEq, Option.some.injEq] at h
              push_neg at hnotdd
              subst h
              simp only [Bool.not_eq_false] at hreg
              exact ⟨rfl, ⟨r, hrel, hnotdd.1, by simp [hnotdd.2]⟩, ⟨info, hstat, hreg⟩⟩

theorem resolveFollowableLink_ok (fs : FS) (root cur href : GoString)
    (link : FollowableLink)
    (h : resolveFollowableLink fs root cur href = .ok (some link)) :
    ∃ path frag href',
      resolveCandidatePath fs root cur path frag href' = .ok (some link) := by
  unfold resolveFollowableLink at h
  simp only [] at h
  split at h
  · exact absurd h (by simp)
  · split at h
    · exact absurd h (by simp)
    · exact ⟨_, _, _, h⟩

theorem followableLinks_mem (fs : FS) (root cur : GoString) (raw : List RawLink)
    (links : List FollowableLink)
    (h : followableLinksForDocument fs root cur raw = .ok links) :
    ∀ l ∈ links, ¬ trimSpace l.Label = [] ∧
      ∃ href link, resolveFollowableLink fs root cur href = .ok (some link) ∧
        l.ResolvedPath = link.ResolvedPath := by
  induction raw generalizing links with
  | nil =>
    simp only [followableLinksForDocument, Except.ok.injEq] at h
    subst h
    intro l hl
    simp at hl
  | cons rl rest ih =>
    rw [followableLinksForDocument] at h
    split at h
    · exact absurd h (by simp)
    · exact ih links h
    · rename_i link hres
      split at h
      · exact ih links h
      · rename_i hlab
        cases hrec : followableLinksForDocument fs root cur rest with
        | error e => rw [hrec] at h; simp [Except.map] at h
        | ok out =>
          rw [hrec] at h
          simp only [Except.map, Except.ok.injEq] at h
          subst h
          intro l hl
          rcases List.mem_cons.mp hl with rfl | hmem
          · exact ⟨hlab, rl.href, link, hres, rfl⟩
          · exact ih out hrec l hmem

/-- C1: for every filesystem whose primitives are coherent in the ways a
real one is — the working directory is absolute, `EvalSymlinks` maps
absolute paths to absolute paths and is idempotent, and a stat-able path
can be symlink-evaluated — every element of the list returned by
`followableLinksForDocument` satisfies the registry invariant: its
`ResolvedPath` is absolute and symlink-evaluated (a fixed point of
`EvalSymlinks`), stats as an existing regular file, lies inside the
evaluated root (its `filepath.Rel` path from the evaluated root exists and
is neither `..` nor `..`-slash-prefixed — so a destination resolving
outside the evaluated root, by literal `..` traversal or through a
symlink, never appears), and its label is non-empty after trimming. -/
theorem c1_registry_invariant (fs : FS)
    (hcwd : ∀ d, fs.cwd = some d → isAbsPath d = true)
    (hevalAbs : ∀ p q, fs.evalSymlinks p = some q → isAbsPath p = true → isAbsPath q = true)
    (hidem : ∀ p q, fs.evalSymlinks p = some q → fs.evalSymlinks q = some q)
    (hstatEval : ∀ p i, fs.stat p = some i → (fs.evalSymlinks p).isSome = true)
    (root cur : GoString) (raw : List RawLink) (links : List FollowableLink)
    (h : followableLinksForDocument fs root cur raw = .ok links) :
    ∀ l ∈ links,
      isAbsPath l.ResolvedPath = true ∧
      fs.evalSymlinks l.ResolvedPath = some l.ResolvedPath ∧
      (∃ info, fs.stat l.ResolvedPath = some info ∧ info.isRegular = true) ∧
      (∃ rootAbs0, absPath fs root = some rootAbs0 ∧
        ∃ r, rel ((fs.evalSymlinks rootAbs0).getD rootAbs0) l.ResolvedPath = some r ∧
             ¬ r = gs ".." ∧ ¬ hasPrefix r (gs "../") = true) ∧
      ¬ trimSpace l.Label = [] := by
  intro l hl
  obtain ⟨hlab, href, link, hres, hpath⟩ := followableLinks_mem fs root cur raw links h l hl
  obtain ⟨path, frag, href', hcand⟩ := resolveFollowableLink_ok fs root cur href link hres
  obtain ⟨rootAbs0, resAbs0, hra, hca, hrp, hrel, hstat⟩ :=
    resolveCandidatePath_ok fs root cur path frag href' link hcand
  have habs0 : isAbsPath resAbs0 = true := absPath_isAbs fs hcwd _ _ hca
  rw [hpath]
  cases heval : fs.evalSymlinks resAbs0 with
  | none =>
    rw [heval] at hrp
    simp only [Option.getD_none] at hrp
    obtain ⟨info, hst, _⟩ := hstat
    rw [hrp] at hst
    have := hstatEval resAbs0 info hst
    rw [heval] at this
    simp at this
  | some e =>
    rw [heval] at hrp
    simp only [Option.getD_some] at hrp
    rw [hrp] at hrel hstat ⊢
    exact ⟨hevalAbs resAbs0 e heval habs0, hidem resAbs0 e heval, hstat,
           ⟨rootAbs0, hra, hrel⟩, hlab⟩

/-- The link the C1 witness scenario produces. -/
def c1LinkW : FollowableLink :=
  { Href := gs "a.md", Path := gs "a.md", Fragment := [], Label := gs "A",
    ResolvedPath := gs "/r/a.md", ResolvedNote := gs "a.md" }

/-- Witness for C1 on the concrete filesystem `fsSample` and the raw link
`[A](a.md)` from `/r/cur.md` inside root `/r`. -/
theorem c1_registry_invariant_witness :
    isAbsPath c1LinkW.ResolvedPath = true ∧
    fsSample.evalSymlinks c1LinkW.ResolvedPath = some c1LinkW.ResolvedPath ∧
    (∃ info, fsSample.stat c1LinkW.ResolvedPath = some info ∧ info.isRegular = true) ∧
    (∃ rootAbs0, absPath fsSample (gs "/r") = some rootAbs0 ∧
      ∃ r, rel ((fsSample.evalSymlinks rootAbs0).getD rootAbs0) c1LinkW.ResolvedPath = some r ∧
           ¬ r = gs ".." ∧ ¬ hasPrefix r (gs "../") = true) ∧
    ¬ trimSpace c1LinkW.Label = [] := by
  have hlaw1 : ∀ d, fsSample.cwd = some d → isAbsPath d = true := by
    intro d hd
    simp only [fsSample] at hd
    injection hd with hd'
    rw [← hd']
    decide
  have hlaw2 : ∀ p q, fsSample.evalSymlinks p = some q → isAbsPath p = true →
      isAbsPath q = true := by
    intro p q hq habs
    simp only [fsSample] at hq
    split at hq
    · injection hq with hq'
      rw [← hq']
      exact habs
    · exact absurd hq (by simp)
  have hlaw3 : ∀ p q, fsSample.evalSymlinks p = some q →
      fsSample.evalSymlinks q = some q := by
    intro p q hq
    simp only [fsSample] at hq ⊢
    split at hq
    · rename_i hcond
      injection hq with hq'
      subst hq'
      rw [if_pos hcond]
    · exact absurd hq (by simp)
  have hlaw4 : ∀ p i, fsSample.stat p = some i → (fsSample.evalSymlinks p).isSome = true := by
    intro p i hi
    simp only [fsSample] at hi ⊢
    split at hi
    · rename_i hcond
      rw [if_pos (Or.inr hcond)]
      rfl
    · split at hi
      · rename_i hcond
        rw [if_pos (Or.inl hcond)]
        rfl
      · exact absurd hi (by simp)
  exact c1_registry_invariant fsSample hlaw1 hlaw2 hlaw3 hlaw4
    (gs "/r") (gs "/r/cur.md") [⟨gs "a.md", gs "A"⟩] [c1LinkW]
    (by decide) c1LinkW (by simp)

end Glow

namespace Glow

/-! ## Claim theorems: follow / back navigation (C8) -/

theorem c8_step1 (m : PagerModel)
    (hfoc : 0 ≤ m.focusedLink ∧ m.focusedLink < (m.links.length : Int))
    (hres : ¬ (m.links.getD m.focusedLink.toNat zeroLink).ResolvedPath = [])
    (hpath : ¬ m.currentDocument.localPath = []) :
    update m .keyEnter =
      ({ m with history := m.history ++ [⟨m.currentDocument.localPath, m.viewport.yOffset⟩],
                focusedLink := -1,
                viewport := { m.viewport with yOffset := 0 },
                pendingRestoreYOffset := none },
       [Cmd.loadLocalMarkdown ⟨(m.links.getD m.focusedLink.toNat zeroLink).ResolvedPath,
                               (m.links.getD m.focusedLink.toNat zeroLink).ResolvedNote⟩]) := by
  unfold update
  rw [if_pos hfoc]
  unfold followFocusedLink
  simp only [] 
  rw [if_neg hres, if_pos hpath]
  simp [gotoTop]

theorem c8_step2 (m1 : PagerModel) (H : List NavEntry) (e : NavEntry)
    (hh : m1.history = H ++ [e]) :
    update m1 .keyBackspace =
      ({ m1 with history := H, focusedLink := -1,
                 pendingRestoreYOffset := some e.YOffset,
                 viewport := { m1.viewport with yOffset := 0 } },
       [Cmd.loadLocalMarkdown ⟨e.Path, stripAbsolutePath e.Path m1.common.cwd⟩]) := by
  simp only [update]
  rw [if_pos (by rw [hh]; simp)]
  simp only [goBack, hh, List.getLast?_concat]
  simp [gotoTop, List.dropLast_concat]

theorem c8_step3 (m2 : PagerModel) (y : Int) (s : GoStr)
    (hfoc : m2.focusedLink = -1)
    (hpend : m2.pendingRestoreYOffset = some y)
    (hmax : y ≤ m2.viewport.maxYOffset) :
    (update m2 (.contentRendered s)).1.viewport.yOffset = y ∧
    (update m2 (.contentRendered s)).1.pendingRestoreYOffset = none := by
  have hnot : ¬ (0 : Int) ≤ -1 := by decide
  have hpb : pastBottom { yOffset := y, maxYOffset := m2.viewport.maxYOffset, content := s } = false := by
    simp only [pastBottom, decide_eq_false_iff_not]
    omega
  simp [update, applyRenderedContent, setContent, hfoc, hpend, hnot, hpb]

/-- C8: following a focused link with a non-empty `ResolvedPath` from a
document with a known local path pushes `{currentPath, currentScrollOffset}`
onto the history stack, resets the focus index to `-1`, resets the scroll
to top, and requests the load of the link's target; a subsequent back pops
exactly that entry, requests the reload of the popped path, and once the
reloaded content arrives (provided the saved offset is within the new
content's scroll range) the scroll offset is restored to the saved value
rather than left at top. -/
theorem c8_follow_then_back (m : PagerModel)
    (hfoc : 0 ≤ m.focusedLink ∧ m.focusedLink < (m.links.length : Int))
    (hres : ¬ (m.links.getD m.focusedLink.toNat zeroLink).ResolvedPath = [])
    (hpath : ¬ m.currentDocument.localPath = [])
    (hmax : m.viewport.yOffset ≤ m.viewport.maxYOffset) :
    (update m .keyEnter).1.history =
        m.history ++ [⟨m.currentDocument.localPath, m.viewport.yOffset⟩] ∧
    (update m .keyEnter).1.focusedLink = -1 ∧
    (update m .keyEnter).1.viewport.yOffset = 0 ∧
    (update m .keyEnter).2 =
        [Cmd.loadLocalMarkdown ⟨(m.links.getD m.focusedLink.toNat zeroLink).ResolvedPath,
                                (m.links.getD m.focusedLink.toNat zeroLink).ResolvedNote⟩] ∧
    (update (update m .keyEnter).1 .keyBackspace).1.history = m.history ∧
    (update (update m .keyEnter).1 .keyBackspace).1.focusedLink = -1 ∧
    (update (update m .keyEnter).1 .keyBackspace).1.pendingRestoreYOffset =
        some m.viewport.yOffset ∧
    (update (update m .keyEnter).1 .keyBackspace).1.viewport.yOffset = 0 ∧
    (update (update m .keyEnter).1 .keyBackspace).2 =
        [Cmd.loadLocalMarkdown ⟨m.currentDocument.localPath,
            stripAbsolutePath m.currentDocument.localPath m.common.cwd⟩] ∧
    (∀ s, (update (update (update m .keyEnter).1 .keyBackspace).1
              (.contentRendered s)).1.viewport.yOffset = m.viewport.yOffset ∧
          (update (update (update m .keyEnter).1 .keyBackspace).1
              (.contentRendered s)).1.pendingRestoreYOffset = none) := by
  have h1 := c8_step1 m hfoc hres hpath
  have h2 := c8_step2 (update m .keyEnter).1 m.history
    ⟨m.currentDocument.localPath, m.viewport.yOffset⟩ (by rw [h1])
  refine ⟨by rw [h1], by rw [h1], by rw [h1], by rw [h1],
          by rw [h2], by rw [h2], by rw [h2],
          by rw [h2], ?_, ?_⟩
  · rw [h2, h1]
  · intro s
    exact c8_step3 (update (update m .keyEnter).1 .keyBackspace).1 m.viewport.yOffset s
      (by rw [h2]) (by rw [h2])
      (by rw [h2, h1]; exact hmax)

/-- The sample model for the C8 witness: one focused followable link, a
known current document, scroll offset 3 within range. -/
def samplePagerFollow : PagerModel :=
  { common := { cwd := gs "/r", highPerformancePager := false }
    viewport := { yOffset := 3, maxYOffset := 10, content := [] }
    state := .browse
    statusMessage := []
    currentDocument := { localPath := gs "/r/cur.md", Note := gs "cur.md" }
    rendered := [104, 105]
    links := [c1LinkW]
    focusedLink := 0
    history := []
    pendingRestoreYOffset := none }

/-- Witness for C8 on the sample model, with concrete reloaded content. -/
theorem c8_follow_then_back_witness :
    (update samplePagerFollow .keyEnter).1.history =
        [⟨gs "/r/cur.md", 3⟩] ∧
    (update (update samplePagerFollow .keyEnter).1 .keyBackspace).1.pendingRestoreYOffset =
        some 3 ∧
    (update (update (update samplePagerFollow .keyEnter).1 .keyBackspace).1
        (.contentRendered [104])).1.viewport.yOffset = 3 ∧
    (update (update (update samplePagerFollow .keyEnter).1 .keyBackspace).1
        (.contentRendered [104])).1.pendingRestoreYOffset = none := by
  have h := c8_follow_then_back samplePagerFollow (by decide) (by decide) (by decide) (by decide)
  exact ⟨h.1, h.2.2.2.2.2.2.1, (h.2.2.2.2.2.2.2.2.2 [104]).1, (h.2.2.2.2.2.2.2.2.2 [104]).2⟩

end Glow

namespace Glow

/-! ## Segmentation view of the scanner (for C4) -/

/-- A segment of the scanner's traversal: a whole ANSI escape sequence
(`ESC [ … final`, possibly unterminated at end of input) or the bytes of
one printable rune. -/
inductive Seg where
  | esc (bytes : GoStr)
  | chr (bytes : GoStr)

/-- The bytes of a segment. -/
def segBytes : Seg → GoStr
  | .esc b => b
  | .chr b => b

/-- Concatenation of a segment list back into the byte string. -/
def segJoin (l : List Seg) : GoStr := (l.map segBytes).flatten

/-- The segmentation induced by the scanner of `printableRunesAndOffsets`:
same traversal as `praGo`, emitting the consumed chunks. -/
def segsGo : GoStr → List Seg
  | [] => []
  | b :: rest =>
    if b = 27 ∧ rest ≠ [] ∧ rest.headD 0 = 91 then
      .esc (b :: rest.headD 0 :: rest.tail.take (skipEsc rest.tail).1) ::
        segsGo (skipEsc rest.tail).2
    else
      .chr ((b :: rest).take (decodeFB (b :: rest)).2) ::
        segsGo ((b :: rest).drop (decodeFB (b :: rest)).2)
termination_by s => s.length
decreasing_by
  · simp_wf
    have hsk : (skipEsc rest.tail).2.length ≤ rest.tail.length := skipEsc_snd_length_le _
    have ht : rest.tail.length ≤ rest.length := by
      cases rest <;> simp
    omega
  · simp_wf
    exact decodeFB_size_pos _ (by simp)

theorem segJoin_append (x y : List Seg) :
    segJoin (x ++ y) = segJoin x ++ segJoin y := by
  unfold segJoin
  rw [List.map_append, List.flatten_append]

theorem segJoin_cons (t : Seg) (l : List Seg) :
    segJoin (t :: l) = segBytes t ++ segJoin l := by
  unfold segJoin
  rfl

theorem segsGo_join : ∀ (n : Nat) (s : GoStr), s.length = n → segJoin (segsGo s) = s := by
  intro n
  induction n using Nat.strong_induction_on with
  | _ n ihn =>
  intro s hlen
  cases s with
  | nil => simp [segsGo, segJoin]
  | cons b rest =>
    rw [segsGo]
    split
    · rename_i hcond
      obtain ⟨h27, hne, h91⟩ := hcond
      rw [segJoin_cons]
      rw [ihn ((skipEsc rest.tail).2.length) ?hlt _ rfl]
      case hlt =>
        have hsk : (skipEsc rest.tail).2.length ≤ rest.tail.length := skipEsc_snd_length_le _
        have ht : rest.tail.length ≤ rest.length := by cases rest <;> simp
        simp only [List.length_cons] at hlen
        omega
      obtain ⟨rh, rt, rfl⟩ : ∃ rh rt, rest = rh :: rt := by
        cases rest with
        | nil => exact absurd rfl hne
        | cons x xs => exact ⟨x, xs, rfl⟩
      simp only [List.headD_cons] at h91 ⊢
      simp only [List.tail_cons]
      rw [skipEsc_snd_eq_drop]
      simp only [segBytes, List.cons_append, List.append_assoc]
      rw [List.take_append_drop]
    · rename_i hcond
      rw [segJoin_cons]
      rw [ihn (((b :: rest).drop (decodeFB (b :: rest)).2).length) ?hlt2 _ rfl]
      case hlt2 =>
        have := decodeFB_size_pos (b :: rest) (by simp)
        simp only [List.length_drop, List.length_cons] at *
        omega
      simp only [segBytes]
      rw [List.take_append_drop]

theorem segsGo_nonempty : ∀ (n : Nat) (s : GoStr), s.length = n →
    ∀ t ∈ segsGo s, ¬ segBytes t = [] := by
  intro n
  induction n using Nat.strong_induction_on with
  | _ n ihn =>
  intro s hlen t ht
  cases s with
  | nil => simp [segsGo] at ht
  | cons b rest =>
    rw [segsGo] at ht
    split at ht
    · rename_i hcond
      rcases List.mem_cons.mp ht with rfl | hmem
      · simp [segBytes]
      · refine ihn ((skipEsc rest.tail).2.length) ?_ _ rfl t hmem
        have hsk : (skipEsc rest.tail).2.length ≤ rest.tail.length := skipEsc_snd_length_le _
        have htl : rest.tail.length ≤ rest.length := by cases rest <;> simp
        simp only [List.length_cons] at hlen
        omega
    · rename_i hcond
      rcases List.mem_cons.mp ht with rfl | hmem
      · have := decodeFB_size_pos (b :: rest) (by simp)
        simp only [segBytes]
        intro hemp
        have := congrArg List.length hemp
        simp only [List.length_take, List.length_cons, List.length_nil] at this
        omega
      · refine ihn (((b :: rest).drop (decodeFB (b :: rest)).2).length) ?_ _ rfl t hmem
        have := decodeFB_size_pos (b :: rest) (by simp)
        simp only [List.length_drop, List.length_cons] at *
        omega


theorem praGo_offsets_boundary : ∀ (n : Nat) (pending : GoStr), pending.length = n →
    ∀ (i : Nat), ∀ p ∈ (praGo pending i).2,
      ∃ sA sB, segsGo pending = sA ++ sB ∧ i + (segJoin sA).length = p := by
  intro n
  induction n using Nat.strong_induction_on with
  | _ n ihn =>
  intro pending hlen i p hp
  cases pending with
  | nil =>
    simp [praGo, praGoF] at hp
    exact ⟨[], [], by simp [segsGo], by simp [segJoin, hp]⟩
  | cons b rest =>
    by_cases hcond : b = 27 ∧ rest ≠ [] ∧ rest.headD 0 = 91
    · rw [praGo_esc b rest i hcond] at hp
      have hsk : (skipEsc rest.tail).1 ≤ rest.tail.length := skipEsc_fst_le _
      have htl : rest.tail.length ≤ rest.length := by cases rest <;> simp
      obtain ⟨sA', sB', hseg, hlen'⟩ := ihn ((skipEsc rest.tail).2.length)
        (by have := skipEsc_snd_length_le rest.tail
            simp only [List.length_cons] at hlen
            omega)
        _ rfl (i + 2 + (skipEsc rest.tail).1) p hp
      refine ⟨.esc (b :: rest.headD 0 :: rest.tail.take (skipEsc rest.tail).1) :: sA', sB', ?_, ?_⟩
      · rw [segsGo, if_pos hcond, hseg]
        rfl
      · rw [segJoin_cons]
        simp only [segBytes, List.length_append, List.length_cons, List.length_take]
        omega
    · rw [praGo_chr b rest i hcond] at hp
      have hsz := decodeFB_size_pos (b :: rest) (by simp)
      have hszle := decodeFB_size_le (b :: rest) (by simp)
      rcases List.mem_cons.mp hp with rfl | hmem
      · exact ⟨[], segsGo (b :: rest), by simp, by simp [segJoin]⟩
      · obtain ⟨sA', sB', hseg, hlen'⟩ := ihn (((b :: rest).drop (decodeFB (b :: rest)).2).length)
          (by simp only [List.length_drop, List.length_cons] at *
              omega)
          _ rfl (i + (decodeFB (b :: rest)).2) p hmem
        refine ⟨.chr ((b :: rest).take (decodeFB (b :: rest)).2) :: sA', sB', ?_, ?_⟩
        · rw [segsGo, if_neg hcond, hseg]
          rfl
        · rw [segJoin_cons]
          simp only [segBytes, List.length_append, List.length_take, List.length_cons]
          simp only [List.length_cons] at hlen hszle
          omega

theorem segs_split_align (full sA sB sA' sB' : List Seg)
    (h1 : full = sA ++ sB) (h2 : full = sA' ++ sB')
    (hlen : (segJoin sA).length ≤ (segJoin sA').length)
    (hne : ∀ t ∈ full, ¬ segBytes t = []) :
    ∃ sM, sA' = sA ++ sM ∧ sB = sM ++ sB' := by
  rcases List.append_eq_append_iff.mp (h1.symm.trans h2) with ⟨w, hw1, hw2⟩ | ⟨w, hw1, hw2⟩
  · exact ⟨w, hw1, hw2⟩
  · have hj : (segJoin sA).length = (segJoin sA').length + (segJoin w).length := by
      rw [hw1, segJoin_append, List.length_append]
    have hw0 : (segJoin w).length = 0 := by omega
    have hwnil : w = [] := by
      cases w with
      | nil => rfl
      | cons t ts =>
        have htm : t ∈ full := by
          rw [h1, hw1]
          simp
        rw [segJoin_cons, List.length_append] at hw0
        have hbt : segBytes t = [] := List.length_eq_zero.mp (by omega)
        exact absurd hbt (hne t htm)
    subst hwnil
    rw [List.append_nil] at hw1
    rw [List.nil_append] at hw2
    exact ⟨[], by rw [List.append_nil, hw1], by rw [List.nil_append, hw2]⟩

theorem spansLoop_length (P : GoStr) (offs : List Nat) (renderedLen : Nat)
    (links : List FollowableLink) (searchFrom : Nat) :
    (spansLoop P offs renderedLen links searchFrom).length = links.length := by
  induction links generalizing searchFrom with
  | nil => simp [spansLoop]
  | cons l rest ih =>
    rw [spansLoop]
    split
    · simp only [List.length_cons, ih]
    · dsimp only
      split
      · simp only [List.length_cons, ih]
      · split
        · simp only [List.length_cons, ih]
        · split
          · simp only [List.length_cons, ih]
          · simp only [List.length_cons, ih]


/-- C4: `highlightFocusedLink` either returns its input unchanged or
returns the input with the reverse-video start/end markers inserted at
two scanner-segment boundaries: the input's segmentation splits as
`sA ++ sM ++ sB` and the output is `sA`'s bytes, the start marker, `sM`'s
bytes, the end marker, then `sB`'s bytes. Every ANSI escape sequence of
the input is one `.esc` segment of the segmentation, so each lies wholly
inside one of the three preserved chunks: no escape sequence is split by
an inserted marker and all stay intact in their original relative order,
with every other byte unchanged. -/
theorem c4_escape_sequences_intact (rendered : GoStr) (links : List FollowableLink)
    (focused : Int) :
    highlightFocusedLink rendered links focused = rendered ∨
    ∃ sA sM sB, segsGo rendered = sA ++ sM ++ sB ∧
      segJoin sA ++ segJoin sM ++ segJoin sB = rendered ∧
      highlightFocusedLink rendered links focused =
        segJoin sA ++ reverseOn ++ segJoin sM ++ reverseOff ++ segJoin sB := by
  unfold highlightFocusedLink
  split
  · exact Or.inl rfl
  · rename_i hguard
    push_neg at hguard
    simp only []
    split
    · exact Or.inl rfl
    · rename_i hpo
      split
      · exact Or.inl rfl
      · rename_i hok
        right
        simp only [Bool.not_eq_false] at hok
        -- abbreviations
        set po := printableRunesAndOffsets rendered with hpo2
        set spans := spansLoop (encodeRunes po.1) po.2 rendered.length links 0 with hspansdef
        set sp := spans.getD focused.toNat ⟨0, 0, false⟩ with hspdef
        -- the focused span is a member of the span list
        have hfoclt : focused.toNat < spans.length := by
          rw [hspansdef, spansLoop_length]
          omega
        have hmem : sp ∈ spans := getD_mem_of_lt spans focused.toNat _ hfoclt
        -- offsets facts
        obtain ⟨hlen1, _, _, _, _⟩ := praGo_inv rendered 0
        have hoffsne : po.2 ≠ [] := by
          intro hemp
          rw [hpo2] at hemp
          simp only [printableRunesAndOffsets] at hemp
          rw [hemp] at hlen1
          simp at hlen1
        have hbounds := spansLoop_ok_bounds (encodeRunes po.1) po.2 rendered.length links 0
          hoffsne sp (hspansdef ▸ hmem) hok
        obtain ⟨hse, hstople, hstartmem, hstopmem⟩ := hbounds
        -- segment boundaries at sp.start and sp.stop
        obtain ⟨sA, sB1, hseg1, hlenA⟩ := praGo_offsets_boundary rendered.length rendered rfl 0
          sp.start (by simpa [printableRunesAndOffsets] using hstartmem)
        obtain ⟨sA', sB', hseg2, hlenA'⟩ := praGo_offsets_boundary rendered.length rendered rfl 0
          sp.stop (by simpa [printableRunesAndOffsets] using hstopmem)
        simp only [Nat.zero_add] at hlenA hlenA'
        have hnonempty := segsGo_nonempty rendered.length rendered rfl
        obtain ⟨sM, hA', hB⟩ := segs_split_align (segsGo rendered) sA sB1 sA' sB'
          hseg1 hseg2 (by omega) hnonempty
        have hjoin : segJoin (segsGo rendered) = rendered := segsGo_join rendered.length rendered rfl
        have hdecomp : rendered = segJoin sA ++ segJoin sM ++ segJoin sB' := by
          rw [← hjoin, hseg2, hA']
          rw [segJoin_append, segJoin_append]
        refine ⟨sA, sM, sB', by rw [hseg2, hA'], by rw [← hdecomp], ?_⟩
        -- the three chunks of the original
        have htake1 : rendered.take sp.start = segJoin sA := by
          conv_lhs => rw [hdecomp]
          rw [List.append_assoc]
          exact List.take_left' hlenA
        have htake2 : rendered.take sp.stop = segJoin sA ++ segJoin sM := by
          conv_lhs => rw [hdecomp]
          apply List.take_left'
          rw [List.length_append]
          rw [← hlenA', hA', segJoin_append, List.length_append]
        have hdrop2 : rendered.drop sp.stop = segJoin sB' := by
          conv_lhs => rw [hdecomp]
          apply List.drop_left'
          rw [List.length_append]
          rw [← hlenA', hA', segJoin_append, List.length_append]
        have hmid : (rendered.take sp.stop).drop sp.start = segJoin sM := by
          rw [htake2]
          exact List.drop_left' hlenA
        rw [htake1, htake2, hdrop2, List.drop_left' hlenA]

end Glow

namespace Glow

theorem decodeRune_enc_size (r : Nat) (t : GoStr) :
    (decodeRune (encodeRune r ++ t)).2 = (encodeRune r).length := by
  unfold encodeRune
  split_ifs with h1 h2 h3 h4
  · -- ASCII: [r]
    simp only [List.cons_append, List.nil_append]
    rw [decodeRune.eq_def]
    dsimp only
    rw [if_pos h1]
    simp
  · -- 2-byte
    simp only [List.cons_append, List.nil_append]
    rw [decodeRune.eq_def]
    dsimp only
    rw [if_neg (by omega), if_pos (by omega), if_pos (by omega)]
    simp
  · -- replacement character: [0xEF, 0xBF, 0xBD]
    simp only [List.cons_append, List.nil_append]
    rw [decodeRune.eq_def]
    dsimp only
    rw [if_neg (by omega), if_neg (by omega), if_pos (by omega)]
    have hlo : (if (239 : Nat) = 224 then (160 : Nat) else 128) = 128 := by norm_num
    have hhi : (if (239 : Nat) = 237 then (159 : Nat) else 191) = 191 := by norm_num
    rw [hlo, hhi]
    rw [if_pos (by omega), if_pos (by omega)]
    simp
  · -- 3-byte
    simp only [List.cons_append, List.nil_append]
    rw [decodeRune.eq_def]
    dsimp only
    have hd : r / 4096 < 16 := by omega
    rw [if_neg (by omega), if_neg (by omega), if_pos (by omega)]
    have hb1 : (if 224 + r / 4096 = 224 then (160 : Nat) else 128) ≤ 128 + r / 64 % 64 ∧
        128 + r / 64 % 64 ≤ (if 224 + r / 4096 = 237 then (159 : Nat) else 191) := by
      constructor
      · by_cases hE0 : r / 4096 = 0
        · rw [if_pos (by omega)]
          have hlt : r / 64 < 64 := by omega
          rw [Nat.mod_eq_of_lt hlt]
          omega
        · rw [if_neg (by omega)]
          omega
      · by_cases hED : r / 4096 = 13
        · rw [if_pos (by omega)]
          have hr : r < 55296 := by
            by_contra hge
            push_neg at hge
            have h5 : ¬ (55296 ≤ r ∧ r ≤ 57343) := fun hc => h3 (Or.inl hc)
            have h6 : r ≤ 57343 := by omega
            exact h5 ⟨hge, h6⟩
          omega
        · rw [if_neg (by omega)]
          omega
    rw [if_pos hb1, if_pos (by omega)]
    simp
  · -- 4-byte
    simp only [List.cons_append, List.nil_append]
    rw [decodeRune.eq_def]
    dsimp only
    have hru : r ≤ 1114111 := by omega
    have hrl : 65536 ≤ r := by omega
    have hd : r / 262144 ≤ 4 := by omega
    rw [if_neg (by omega), if_neg (by omega), if_neg (by omega), if_pos (by omega)]
    have hb1 : (if 240 + r / 262144 = 240 then (144 : Nat) else 128) ≤ 128 + r / 4096 % 64 ∧
        128 + r / 4096 % 64 ≤ (if 240 + r / 262144 = 244 then (143 : Nat) else 191) := by
      constructor
      · by_cases hF0 : r / 262144 = 0
        · rw [if_pos (by omega)]
          have hlt : r / 4096 < 64 := by omega
          rw [Nat.mod_eq_of_lt hlt]
          omega
        · rw [if_neg (by omega)]
          omega
      · by_cases hF4 : r / 262144 = 4
        · rw [if_pos (by omega)]
          omega
        · rw [if_neg (by omega)]
          omega
    rw [if_pos hb1, if_pos (by omega), if_pos (by omega)]
    simp

end Glow

namespace Glow

theorem encodeRune_ne_nil (r : Nat) : ¬ encodeRune r = [] := by
  unfold encodeRune
  split_ifs <;> simp

theorem encodeRunes_cons (r : Nat) (rs : List Nat) :
    encodeRunes (r :: rs) = encodeRune r ++ encodeRunes rs := by
  unfold encodeRunes
  rw [List.map_cons, List.flatten_cons]

theorem runeCount_nil : runeCount [] = 0 := rfl

theorem runeCount_enc_append (rs : List Nat) (t : GoStr) :
    runeCount (encodeRunes rs ++ t) = rs.length + runeCount t := by
  induction rs with
  | nil => simp [encodeRunes]
  | cons r rs' ih =>
    rw [encodeRunes_cons, List.append_assoc]
    cases henc : encodeRune r with
    | nil => exact absurd henc (encodeRune_ne_nil r)
    | cons b bs =>
      have hs := decodeRune_enc_size r (encodeRunes rs' ++ t)
      rw [henc] at hs
      rw [List.cons_append] at hs ⊢
      rw [runeCount_cons]
      rw [hs]
      have hdrop : (b :: (bs ++ (encodeRunes rs' ++ t))).drop (b :: bs).length =
          encodeRunes rs' ++ t := by
        rw [← List.cons_append]
        exact List.drop_left (b :: bs) _
      rw [hdrop, ih]
      simp only [List.length_cons]
      omega

theorem runeCount_encodeRunes (rs : List Nat) : runeCount (encodeRunes rs) = rs.length := by
  have := runeCount_enc_append rs []
  rw [List.append_nil, runeCount_nil] at this
  omega

theorem indexOfSub_some_prefix (s sub : GoStr) (n : Nat) (h : indexOfSub s sub = some n) :
    sub.isPrefixOf (s.drop n) = true := by
  induction s generalizing n with
  | nil =>
    rw [indexOfSub] at h
    split at h
    · rename_i hp
      injection h with h'
      subst h'
      simpa using hp
    · simp at h
  | cons c rest ih =>
    rw [indexOfSub] at h
    split at h
    · rename_i hp
      injection h with h'
      subst h'
      simpa using hp
    · cases hrec : indexOfSub rest sub with
      | none => rw [hrec] at h; simp at h
      | some m =>
        rw [hrec] at h
        simp only [Option.map_some'] at h
        injection h with h'
        subst h'
        rw [List.drop_succ_cons]
        exact ih m hrec

theorem indexOfSub_nil_of_ne (sub : GoStr) (h : ¬ sub = []) : indexOfSub [] sub = none := by
  rw [indexOfSub]
  rw [if_neg ?hpre]
  case hpre =>
    cases sub with
    | nil => exact absurd rfl h
    | cons c cs => simp [List.isPrefixOf]

theorem indexOfSub_lt_length (s sub : GoStr) (n : Nat) (hne : ¬ sub = [])
    (h : indexOfSub s sub = some n) : n < s.length := by
  have hp := indexOfSub_some_prefix s sub n h
  rw [List.isPrefixOf_iff_prefix] at hp
  have hlen := hp.length_le
  simp only [List.length_drop] at hlen
  have : 1 ≤ sub.length := by
    cases sub with
    | nil => exact absurd rfl hne
    | cons x xs => simp
  omega

theorem chain'_lt_getD_le (l : List Nat) (hc : List.Chain' (· < ·) l)
    (a b : Nat) (hab : a ≤ b) (hb : b < l.length) : l.getD a 0 ≤ l.getD b 0 := by
  rcases Nat.eq_or_lt_of_le hab with rfl | hlt
  · exact Nat.le_refl _
  · have hp := List.chain'_iff_pairwise.mp hc
    have hget := List.pairwise_iff_get.mp hp ⟨a, by omega⟩ ⟨b, hb⟩ hlt
    rw [List.getD_eq_getElem l 0 (show a < l.length by omega), List.getD_eq_getElem l 0 hb]
    exact Nat.le_of_lt hget

end Glow

namespace Glow

/-- C3: with a registry of two links whose trimmed labels are the same
non-empty byte string `L`, where the first search finds `L` at `i0` in the
printable stream and the search restarted after that match's end finds `L`
again at relative position `r1` — so the second occurrence starts at
`i0 + |L| + r1`, strictly after the first match's end byte, because the
cursor advances past each link's match — highlighting index 1 wraps
exactly the byte range of that second occurrence (rune positions `k` to
`mm`, mapped through the offset table), not the first. -/
theorem c3_duplicate_label_second_occurrence
    (rendered : GoStr) (l0 l1 : FollowableLink) (L : GoStr) (i0 r1 k mm : Nat)
    (hl0 : trimSpaceB (strBytes l0.Label) = L)
    (hl1 : trimSpaceB (strBytes l1.Label) = L)
    (hne : ¬ L = [])
    (h0 : indexOfSub (encodeRunes (printableRunesAndOffsets rendered).1) L = some i0)
    (h1 : indexOfSub ((encodeRunes (printableRunesAndOffsets rendered).1).drop
            (i0 + L.length)) L = some r1)
    (hk : (encodeRunes (printableRunesAndOffsets rendered).1).take (i0 + L.length + r1) =
          encodeRunes ((printableRunesAndOffsets rendered).1.take k))
    (hLenc : L = encodeRunes (((printableRunesAndOffsets rendered).1.take mm).drop k))
    (hkm : k ≤ mm) (hmmle : mm ≤ (printableRunesAndOffsets rendered).1.length) :
    highlightFocusedLink rendered [l0, l1] 1 =
      rendered.take ((printableRunesAndOffsets rendered).2.getD k 0) ++ reverseOn ++
      ((rendered.take ((printableRunesAndOffsets rendered).2.getD mm 0)).drop
        ((printableRunesAndOffsets rendered).2.getD k 0)) ++ reverseOff ++
      rendered.drop ((printableRunesAndOffsets rendered).2.getD mm 0) := by
  set runes := (printableRunesAndOffsets rendered).1 with hrunes
  set offs := (printableRunesAndOffsets rendered).2 with hoffs
  set P := encodeRunes runes with hP
  -- facts from the offset-table invariant
  obtain ⟨hI1, hI2, hI3, hI4, hI5⟩ := praGo_inv rendered 0
  have hofflen : offs.length = runes.length + 1 := hI1
  have hPne : ¬ P = [] := by
    intro hPnil
    rw [hPnil] at h0
    rw [indexOfSub_nil_of_ne L hne] at h0
    exact absurd h0 (by simp)
  have hrne : ¬ runes = [] := by
    intro hrnil
    rw [hP, hrnil] at hPne
    exact hPne rfl
  -- the first search hits inside P
  have hi0lt : i0 < P.length := indexOfSub_lt_length P L i0 hne h0
  -- the second search hits inside the remaining stream
  have hsf : i0 + L.length < P.length := by
    have := indexOfSub_lt_length (P.drop (i0 + L.length)) L r1 hne h1
    simp only [List.length_drop] at this
    omega
  -- the rune-position bookkeeping of the second match
  have hSR : runeCount (P.take (i0 + L.length + r1)) = k := by
    rw [hk, runeCount_encodeRunes, List.length_take]
    omega
  have hRC : runeCount L = mm - k := by
    rw [hLenc, runeCount_encodeRunes, List.length_drop, List.length_take]
    omega
  have hmono := chain'_lt_getD_le offs hI2 k mm hkm (by omega)
  have hstop_le : offs.getD mm 0 ≤ rendered.length := by
    have hmem : offs.getD mm 0 ∈ offs := getD_mem_of_lt offs mm 0 (by omega)
    have := hI4 _ hmem
    omega
  -- the second step of the span loop
  -- second step of the span loop: the single remaining link finds the
  -- second occurrence and produces the ok span
  have hstep2 : spansLoop P offs rendered.length [l1] (i0 + L.length) =
      [⟨offs.getD k 0, offs.getD mm 0, true⟩] := by
    rw [spansLoop]
    simp only [hl1]
    rw [if_neg (by push_neg; exact ⟨hne, by omega⟩)]
    rw [h1]
    simp only []
    rw [hSR, hRC]
    have he : k + (mm - k) = mm := by omega
    rw [he]
    rw [if_neg (show ¬ (offs.length - 1 < mm) by omega)]
    rw [if_neg (by push_neg; exact ⟨hmono, hstop_le⟩)]
    rw [spansLoop]
  -- first step: whatever span the first link yields, the tail is the
  -- second-step loop restarted past the first match
  have hstep1 : ∃ sp0, spansLoop P offs rendered.length [l0, l1] 0 =
      sp0 :: spansLoop P offs rendered.length [l1] (i0 + L.length) := by
    rw [spansLoop]
    simp only [hl0]
    rw [if_neg (by push_neg; exact ⟨hne, by omega⟩)]
    rw [List.drop_zero, h0]
    simp only [Nat.zero_add]
    repeat' split
    all_goals exact ⟨_, rfl⟩
  obtain ⟨sp0, hsp0⟩ := hstep1
  -- assemble
  unfold highlightFocusedLink
  rw [if_neg (by push_neg; refine ⟨by decide, ?_⟩; simp)]
  simp only []
  rw [← hrunes, ← hoffs, ← hP]
  rw [if_neg hrne]
  rw [hsp0, hstep2]
  simp only [Int.toNat_one, List.getD_cons_succ, List.getD_cons_zero]
  simp
end Glow

namespace Glow

/-- Witness for C3 at the concrete rendered line "here here" with two
links labelled "here": index 1 highlights the second occurrence. -/
theorem c3_duplicate_label_second_occurrence_witness :
    highlightFocusedLink [104, 101, 114, 101, 32, 104, 101, 114, 101]
      [⟨gs "", gs "", gs "", gs "here", gs "", gs ""⟩,
       ⟨gs "", gs "", gs "", gs "here", gs "", gs ""⟩] 1 =
      [104, 101, 114, 101, 32, 27, 91, 55, 109,
       104, 101, 114, 101, 27, 91, 50, 55, 109] := by
  have h := c3_duplicate_label_second_occurrence
      [104, 101, 114, 101, 32, 104, 101, 114, 101]
      ⟨gs "", gs "", gs "", gs "here", gs "", gs ""⟩
      ⟨gs "", gs "", gs "", gs "here", gs "", gs ""⟩
      [104, 101, 114, 101] 0 1 5 9
      (by decide) (by decide) (by decide) (by decide) (by decide)
      (by decide) (by decide) (by decide) (by decide)
  rw [h]
  decide

end Glow
